import Mathlib

/-!
# Verification of the otskit deep object transformation engine

Shallow embedding of the object module of the otskit repository
(file src/math.ts: clone, deepMerge, makeReadonly, traverse and their
helpers cloneWithOriginalBehavior, cloneValue, mergeWith, deepFreeze,
traverseObject, processEntriesSync, processEntriesAsync, processEntryCommon,
processArrayAsync), together with the classifier predicates it consumes
from src/is.ts (isPlainObject, isArray, isFunction).

Modelling conventions:

* A JavaScript value is an `LVal` tree.  Composite values that have a
  JavaScript object identity (plain objects, arrays, Dates, RegExps, Maps,
  Sets, opaque class instances) carry an identity label of type
  `Option Nat`.  Values supplied by the caller carry `some id` labels;
  every allocation the engine performs (an object literal, an array
  literal or spread copy, a reconstructed Date/RegExp/Map/Set) is labelled
  `none`.  Reference assignment preserves the label.  Two trees share a
  JavaScript node exactly when a `some id` label occurs in both, so the
  "shares no nested node" guarantees of the specification become label
  statements.
* Plain objects are ordered association lists of own enumerable string
  keys, mirroring JavaScript insertion order.  Key update keeps the
  original position; assignment of a fresh key appends, as in JavaScript.
* Numbers are modelled as integers, strings as `String`; this suffices
  for every claim under study (none concerns floating point).
* In-place mutation (push into a freshly created array, assignment into a
  freshly created result object) is modelled by returning the updated
  value; the identity label of the mutated node is preserved.
-/

/-- Identity label of a JavaScript object: `some id` for a node that
existed before the engine call, `none` for a node freshly allocated by the
engine. -/
abbrev OId := Option Nat

/-- Model of a JavaScript value flowing through the object module.
Constructors follow the kinds distinguished by the classifier in
src/is.ts. -/
inductive LVal where
  /-- The JavaScript value null. -/
  | vnull : LVal
  /-- The JavaScript value undefined (also used for an absent key). -/
  | vundef : LVal
  /-- A number (modelled as an integer). -/
  | vnum (n : Int) : LVal
  /-- A string. -/
  | vstr (s : String) : LVal
  /-- A boolean. -/
  | vbool (b : Bool) : LVal
  /-- A plain object: identity label plus ordered own enumerable fields. -/
  | vobj (l : OId) (fields : List (String × LVal)) : LVal
  /-- An array: identity label plus elements. -/
  | varr (l : OId) (elems : List LVal) : LVal
  /-- A Date: identity label plus timestamp. -/
  | vdate (l : OId) (t : Int) : LVal
  /-- A RegExp: identity label plus source and flags. -/
  | vregexp (l : OId) (src flags : String) : LVal
  /-- A Map: identity label plus entry list (entries held by reference). -/
  | vmap (l : OId) (entries : List (LVal × LVal)) : LVal
  /-- A Set: identity label plus element list (elements held by reference). -/
  | vset (l : OId) (elems : List LVal) : LVal
  /-- A function value, identified by a function identity. -/
  | vfunc (fid : Nat) : LVal
  /-- An opaque object (class instance, Promise, ...): identity label only. -/
  | vopaque (l : OId) : LVal

namespace Otskit

open LVal

/-- Classifier src/is.ts: isPlainObject.  In the model a `vobj` is exactly
a value whose structural tag is generic-object with a base prototype chain;
class instances are `vopaque`. -/
def isPlainObject : LVal → Bool
  | vobj _ _ => true
  | _ => false

/-- Classifier src/is.ts: isArray (Array.isArray). -/
def isArray : LVal → Bool
  | varr _ _ => true
  | _ => false

/-- Classifier src/is.ts: isFunction (typeof val === 'function'). -/
def isFunction : LVal → Bool
  | vfunc _ => true
  | _ => false

/-- JavaScript truthiness of a value, as used by the engine's
`if (!target[key])` and `if (newValue && ...)` tests. -/
def truthy : LVal → Bool
  | vnull => false
  | vundef => false
  | vnum n => n != 0
  | vstr s => s != ""
  | vbool b => b
  | _ => true

/-- Reserved key names skipped by the merge/clone key iteration
(prototype-pollution guard). -/
def isReservedKey (k : String) : Bool :=
  k == "__proto__" || k == "constructor" || k == "prototype"

/-- Property read obj[key] on an ordered field list: first binding wins
(JavaScript own keys are unique; the engines only build unique key lists). -/
def getKey : List (String × LVal) → String → Option LVal
  | [], _ => none
  | (k, v) :: rest, q => if k == q then some v else getKey rest q

/-- Property write obj[key] = v on an ordered field list: an existing key
keeps its position, a fresh key is appended, as in JavaScript. -/
def setKey : List (String × LVal) → String → LVal → List (String × LVal)
  | [], q, nv => [(q, nv)]
  | (k, v) :: rest, q, nv =>
    if k == q then (q, nv) :: rest else (k, v) :: setKey rest q nv

/-- Property read obj[key] as JavaScript evaluates it: an absent key reads
as undefined. -/
def readKey (fs : List (String × LVal)) (q : String) : LVal :=
  (getKey fs q).getD vundef

mutual

/-- src/math.ts cloneWithOriginalBehavior(target, source).
If both are arrays, source elements are pushed onto target by reference;
if both are mergable plain objects, source keys are folded into target
(skipping reserved keys); otherwise target is returned unchanged.  The
mutated target is returned; its identity label is preserved. -/
def cloneWithOriginalBehavior (target source : LVal) : LVal :=
  match target, source with
  | varr l es, varr _ es' => varr l (es ++ es')
  | vobj l fs, vobj _ sfs => vobj l (cwobFields fs sfs)
  | t, _ => t

/-- The for-loop of cloneWithOriginalBehavior over the source's keys,
threading the mutated target fields.  Reserved keys are skipped.  An
array-valued or mergable-object-valued source key first ensures a truthy
target slot (allocating a fresh [] or {} when the slot is falsy) and then
recurses; any other value is assigned by reference. -/
def cwobFields (tfs sfs : List (String × LVal)) : List (String × LVal) :=
  match sfs with
  | [] => tfs
  | (k, sv) :: rest =>
    if isReservedKey k then cwobFields tfs rest
    else
      match sv with
      | varr l es =>
        cwobFields (setKey tfs k (cloneWithOriginalBehavior
          (if truthy (readKey tfs k) then readKey tfs k else varr none [])
          (varr l es))) rest
      | vobj l sfs' =>
        cwobFields (setKey tfs k (cloneWithOriginalBehavior
          (if truthy (readKey tfs k) then readKey tfs k else vobj none [])
          (vobj l sfs'))) rest
      | sv' => cwobFields (setKey tfs k sv') rest

end

/-- src/math.ts clone(obj) = cloneWithOriginalBehavior({}, obj).  The {}
literal is a fresh allocation, labelled none. -/
def clone (obj : LVal) : LVal :=
  cloneWithOriginalBehavior (vobj none []) obj

/-- src/math.ts cloneSpecialObject: Date, RegExp, Map and Set are
reconstructed as fresh instances (Map and Set copy constructors keep the
entries by reference); every other object is returned as-is. -/
def cloneSpecialObject : LVal → LVal
  | vdate _ t => vdate none t
  | vregexp _ src flags => vregexp none src flags
  | vmap _ entries => vmap none entries
  | vset _ es => vset none es
  | v => v

mutual

/-- src/math.ts cloneValue, the per-value copy rule used by the merge
engine: primitives, null, undefined and functions pass through; an array
becomes a fresh shallow copy [...value]; a non-plain object goes through
cloneSpecialObject; a plain object becomes a fresh object whose own keys
are cloneValue-copied one by one (no reserved-key filter here). -/
def cloneValue : LVal → LVal
  | vnull => vnull
  | vundef => vundef
  | vnum n => vnum n
  | vstr s => vstr s
  | vbool b => vbool b
  | vfunc f => vfunc f
  | varr _ es => varr none es
  | vobj _ fs => vobj none (cloneValueFields [] fs)
  | v => cloneSpecialObject v

/-- The for-loop of cloneValue over a plain object's own keys, writing
cloned[key] = cloneValue(value[key]) into the fresh accumulator.
JavaScript own keys are unique, so iterating the binding list is
iterating Object.keys. -/
def cloneValueFields (acc : List (String × LVal)) :
    List (String × LVal) → List (String × LVal)
  | [] => acc
  | (k, v) :: rest => cloneValueFields (setKey acc k (cloneValue v)) rest

end

/-- The first for-loop of src/math.ts mergeWith: copy every
non-reserved key of the target into the fresh result object, deep-cloning
each value with cloneValue. -/
def mergeTargetFields (acc : List (String × LVal)) :
    List (String × LVal) → List (String × LVal)
  | [] => acc
  | (k, tv) :: rest =>
    if isReservedKey k then mergeTargetFields acc rest
    else mergeTargetFields (setKey acc k (cloneValue tv)) rest

mutual

/-- The body of src/math.ts mergeWith for a single source, i.e.
mergeWith(target, source) with exactly one source: when both target and
source are plain objects, build a fresh result by the two key passes;
otherwise (including a literally-undefined source) return the target
unchanged.  The recursive call mergeWith(targetValue, sourceValue) inside
the source-key loop is exactly this single-source case. -/
def mergeTwo (target source : LVal) : LVal :=
  match target, source with
  | vobj _ tfs, vobj _ sfs =>
    vobj none (mergeSourceFields (mergeTargetFields [] tfs) sfs)
  | t, _ => t

/-- The second for-loop of src/math.ts mergeWith, over the source's
keys: reserved keys are skipped; null and undefined always replace; an
array is replaced by a fresh shallow copy; a plain-object source value is
merged recursively into a plain-object result value and cloneValue-copied
otherwise; every other value is cloneValue-copied.  JavaScript own keys
are unique, so iterating the binding list is iterating Object.keys. -/
def mergeSourceFields (acc : List (String × LVal)) :
    List (String × LVal) → List (String × LVal)
  | [] => acc
  | (k, sv) :: rest =>
    if isReservedKey k then mergeSourceFields acc rest
    else
      match sv with
      | vnull => mergeSourceFields (setKey acc k vnull) rest
      | vundef => mergeSourceFields (setKey acc k vundef) rest
      | varr _ es => mergeSourceFields (setKey acc k (varr none es)) rest
      | vobj l sfs' =>
        if isPlainObject (readKey acc k) then
          mergeSourceFields (setKey acc k (mergeTwo (readKey acc k) (vobj l sfs'))) rest
        else
          mergeSourceFields (setKey acc k (cloneValue (vobj l sfs'))) rest
      | v => mergeSourceFields (setKey acc k (cloneValue v)) rest

end

/-- src/math.ts mergeWith(target, ...sources).  An empty source list
returns the target; a literally-undefined first source returns the target
(dropping the remaining sources, as the early return in the code does);
otherwise the single-source merge body runs (a no-op unless both sides
are plain objects) and its result becomes the target for the remaining
sources. -/
def mergeWith (target : LVal) : List LVal → LVal
  | [] => target
  | vundef :: _ => target
  | source :: rest => mergeWith (mergeTwo target source) rest

/-- src/math.ts deepMerge(...objects) = mergeWith({}, ...objects): fold
the sources left-to-right onto a fresh empty object. -/
def deepMerge (objects : List LVal) : LVal :=
  mergeWith (vobj none []) objects

/-- typeof val === 'object' && val !== null: the values deepFreeze
recurses into (functions have typeof 'function' and are not entered). -/
def isObjectTyped : LVal → Bool
  | vobj _ _ => true
  | varr _ _ => true
  | vdate _ _ => true
  | vregexp _ _ _ => true
  | vmap _ _ => true
  | vset _ _ => true
  | vopaque _ => true
  | _ => false

/-- Turn an identity label into its contribution to an id list. -/
def optId : OId → List Nat
  | some i => [i]
  | none => []

mutual

/-- Model of the side effect of src/math.ts deepFreeze(obj): the
identity labels of every pre-existing node Object.freeze is called on.
deepFreeze freezes its argument and recurses into every own property
value that is object-typed and not null: the fields of a plain object and
the elements of an array.  Date/RegExp/Map/Set/opaque nodes are frozen
when reached but expose no object-typed own properties (Map and Set
entries live in internal slots), so recursion stops there. -/
def deepFreezeIds : LVal → List Nat
  | vobj l fs => optId l ++ freezeFieldIds fs
  | varr l es => optId l ++ freezeElemIds es
  | vdate l _ => optId l
  | vregexp l _ _ => optId l
  | vmap l _ => optId l
  | vset l _ => optId l
  | vopaque l => optId l
  | _ => []

/-- deepFreeze recursion over a plain object's own property values. -/
def freezeFieldIds : List (String × LVal) → List Nat
  | [] => []
  | (_, v) :: rest =>
    (if isObjectTyped v then deepFreezeIds v else []) ++ freezeFieldIds rest

/-- deepFreeze recursion over an array's elements (its own indexed
properties). -/
def freezeElemIds : List LVal → List Nat
  | [] => []
  | v :: rest =>
    (if isObjectTyped v then deepFreezeIds v else []) ++ freezeElemIds rest

end

/-- src/math.ts makeReadonly(obj) = deepFreeze(clone(obj)).  The first
component is the returned value (deepFreeze returns its argument); the
second is the model of the freeze side effect: the identity labels of the
pre-existing nodes that end up frozen. -/
def makeReadonly (obj : LVal) : LVal × List Nat :=
  (clone obj, deepFreezeIds (clone obj))

mutual

/-- Identity labels of every plain-object and array node occurring
anywhere in a value (including inside Map entries and Set elements).  Two
trees share a plain-object/array node exactly when some id occurs in both
lists, and a tree built only from fresh allocations has an empty list. -/
def oaIds : LVal → List Nat
  | vobj l fs => optId l ++ oaIdsFields fs
  | varr l es => optId l ++ oaIdsElems es
  | vmap _ entries => oaIdsPairs entries
  | vset _ es => oaIdsElems es
  | _ => []

/-- oaIds over object fields. -/
def oaIdsFields : List (String × LVal) → List Nat
  | [] => []
  | (_, v) :: rest => oaIds v ++ oaIdsFields rest

/-- oaIds over a value list. -/
def oaIdsElems : List LVal → List Nat
  | [] => []
  | v :: rest => oaIds v ++ oaIdsElems rest

/-- oaIds over Map entries. -/
def oaIdsPairs : List (LVal × LVal) → List Nat
  | [] => []
  | (a, b) :: rest => oaIds a ++ oaIds b ++ oaIdsPairs rest

end

mutual

/-- A value containing no plain-object and no array node at all (at any
depth, including inside Map entries and Set elements). -/
def noOA : LVal → Bool
  | vobj _ _ => false
  | varr _ _ => false
  | vmap _ entries => noOAPairs entries
  | vset _ es => noOAElems es
  | _ => true

/-- noOA over a value list. -/
def noOAElems : List LVal → Bool
  | [] => true
  | v :: rest => noOA v && noOAElems rest

/-- noOA over Map entries. -/
def noOAPairs : List (LVal × LVal) → Bool
  | [] => true
  | (a, b) :: rest => noOA a && noOA b && noOAPairs rest

end

mutual

/-- Inputs on which the engines' shallow reference copies can never leak
a plain-object or array node: plain-object fields may nest freely, but an
array element, Map entry or Set element (all copied by reference) must
not contain any plain object or array. -/
def shareFree : LVal → Bool
  | vobj _ fs => shareFreeFields fs
  | varr _ es => noOAElems es
  | vmap _ entries => noOAPairs entries
  | vset _ es => noOAElems es
  | _ => true

/-- shareFree over object fields. -/
def shareFreeFields : List (String × LVal) → Bool
  | [] => true
  | (_, v) :: rest => shareFree v && shareFreeFields rest

end

mutual

/-- Inputs on which makeReadonly freezes no pre-existing node: plain
objects may nest freely, arrays may hold only non-object-typed values
(primitives and functions), and no Date/RegExp/Map/Set/class-instance may
occur anywhere, since clone shares all of those by reference and
deepFreeze then freezes them. -/
def freezeSafe : LVal → Bool
  | vobj _ fs => freezeSafeFields fs
  | varr _ es => es.all (fun e => !isObjectTyped e)
  | vdate _ _ => false
  | vregexp _ _ _ => false
  | vmap _ _ => false
  | vset _ _ => false
  | vopaque _ => false
  | _ => true

/-- freezeSafe over object fields. -/
def freezeSafeFields : List (String × LVal) → Bool
  | [] => true
  | (_, v) :: rest => freezeSafe v && freezeSafeFields rest

end

/-! ## Claim C1: sharing behaviour of clone -/
/-- The concrete input refuting claim C1: a plain object holding an array
holding a plain object. -/
def c1Input : LVal :=
  vobj (some 0) [("a", varr (some 1) [vobj (some 2) [("b", vnum 1)]])]

/-! ## Claim C2: sharing behaviour of deepMerge -/
/-- The concrete deepMerge call refuting claim C2. -/
def c2Source : LVal :=
  vobj (some 1) [("a", varr (some 2) [vobj (some 3) [("b", vnum 1)]])]

/-! ## Claim C6: array replacement in deepMerge -/
/-- Own fields of a plain object (empty for any other value). -/
def fieldsOf : LVal → List (String × LVal)
  | vobj _ fs => fs
  | _ => []

/-- JavaScript objects have unique own keys; field lists built by the
engines satisfy this, and inputs coming from JavaScript always do. -/
def uniqKeys : List (String × LVal) → Bool
  | [] => true
  | (k, _) :: rest => rest.all (fun p => p.1 != k) && uniqKeys rest

/-! ## Claim C7: associativity of deepMerge on plain trees -/
mutual

/-- A plain-object tree without arrays and without special types: only
null, undefined, primitives and nested plain objects (the restriction
stated by the associativity claim). -/
def plainVal : LVal → Bool
  | vnull => true
  | vundef => true
  | vnum _ => true
  | vstr _ => true
  | vbool _ => true
  | vobj _ fs => plainFields fs
  | _ => false

/-- plainVal over object fields. -/
def plainFields : List (String × LVal) → Bool
  | [] => true
  | (_, v) :: rest => plainVal v && plainFields rest

end

mutual

/-- A normalized plain tree as produced by the merge engine: scalars, or
a freshly allocated object (label none) whose field list has unique keys
and normalized values. -/
def normv : LVal → Bool
  | vnull => true
  | vundef => true
  | vnum _ => true
  | vstr _ => true
  | vbool _ => true
  | vobj none fs => normFields fs
  | _ => false

/-- normv over object fields, with key uniqueness built in. -/
def normFields : List (String × LVal) → Bool
  | [] => true
  | (k, v) :: rest =>
    normv v && (rest.all fun p => p.1 != k) && normFields rest

end

/-- No reserved key occurs among a field list's own keys. -/
def noReservedTop (fs : List (String × LVal)) : Bool :=
  fs.all fun p => !isReservedKey p.1

/-- The concrete input refuting claim C3. -/
def c3Input : LVal :=
  vobj (some 0) [("a", varr (some 1) [vobj (some 2) [("b", vnum 1)]])]

/-! Traverse engine (src/math.ts traverse, traverseObject,
processEntriesSync, processEntriesAsync, processEntryCommon,
processArrayAsync).

A visitor invocation is modelled by its observable outcome `VisitRes`:
whether the returned value is a Promise, whether `node.ignoreChildren()`
was called during the invocation, and the settled outcome (a thrown
error code, `undefined`, or a `{key, value}` pair).  A JavaScript
visitor function is a map from its arguments (key, value, node path) to
such an outcome.  Promise settlement is modelled by `Except`: for a
synchronous invocation (`promise = false`) an `error` outcome is a
synchronous throw; for `promise = true` it is a rejected promise,
observed only when awaited.  Recursion depth is bounded by explicit
fuel; every engine function consumes fuel, and exhaustion is the
distinguished error `EErr.nofuel` (never produced by the JavaScript
code for finite trees, so any run that returns `ok`/`thrown` matches
the source).  Each function also returns the trace of visitor
invocations it performed, in order. -/
/-- One element of a TraverseNode path: an object key or array index. -/
inductive PathE where
  | pk (k : String) : PathE
  | pi (i : Nat) : PathE

/-- Observable outcome of one visitor invocation: whether the returned
value is a Promise, whether ignoreChildren() was called, and the settled
result (throw code / undefined / {key, value}). -/
structure VisitRes where
  promise : Bool
  ignore : Bool
  out : Except Nat (Option (String × LVal))

/-- A visitor: from the `{key, value}` argument and the node's path to
the invocation's outcome. -/
def Visitor := String → LVal → List PathE → VisitRes

/-- One recorded visitor invocation: the key/value argument pair and the
path of the TraverseNode handed to the visitor. -/
structure VCall where
  key : String
  value : LVal
  path : List PathE

/-- Engine-level error: a (possibly rethrown) visitor error, or fuel
exhaustion (a modelling artefact, impossible in any `ok` run). -/
inductive EErr where
  | thrown (e : Nat) : EErr
  | nofuel : EErr

/-- One processedEntries record of traverseObject: key, whether
transformResult was a Promise, its settled outcome, whether the entry's
TraverseNode was told to ignore children, originalValue = cloned[key],
and the entry node's path. -/
structure TEntry where
  key : String
  promise : Bool
  res : Except Nat (Option (String × LVal))
  ignore : Bool
  originalValue : LVal
  path : List PathE

/-- Elements of an array value (empty for non-arrays). -/
def elemsOf : LVal → List LVal
  | varr _ es => es
  | _ => []

/-- Identity label of an array value. -/
def arrLabelOf : LVal → OId
  | varr l _ => l
  | _ => none

/-- processEntryCommon's resolution of the visitor result: undefined
keeps the original key and value, a {key, value} pair replaces them. -/
def resolveKV (key : String) (ov : LVal) : Option (String × LVal) → String × LVal
  | none => (key, ov)
  | some kv => kv

/-- The entry-collection loop of traverseObject: for each key of the
cloned object, build the child node path, invoke the visitor, record
whether the result is a Promise, and push the entry.  A synchronous
throw (non-Promise error outcome) aborts the loop and propagates. -/
def collectEntries (fn : Visitor) (parentPath : List PathE) :
    List (String × LVal) → Except EErr (List TEntry) × List VCall
  | [] => (Except.ok [], [])
  | (k, v) :: rest =>
    match fn k v (parentPath ++ [PathE.pk k]) with
    | ⟨false, _, Except.error e⟩ =>
      (Except.error (EErr.thrown e), [⟨k, v, parentPath ++ [PathE.pk k]⟩])
    | ⟨true, ig, Except.error e⟩ =>
      match collectEntries fn parentPath rest with
      | (Except.error er, tr) =>
        (Except.error er, ⟨k, v, parentPath ++ [PathE.pk k]⟩ :: tr)
      | (Except.ok es, tr) =>
        (Except.ok (⟨k, true, Except.error e, ig, v, parentPath ++ [PathE.pk k]⟩ :: es),
          ⟨k, v, parentPath ++ [PathE.pk k]⟩ :: tr)
    | ⟨p, ig, Except.ok o⟩ =>
      match collectEntries fn parentPath rest with
      | (Except.error er, tr) =>
        (Except.error er, ⟨k, v, parentPath ++ [PathE.pk k]⟩ :: tr)
      | (Except.ok es, tr) =>
        (Except.ok (⟨k, p, Except.ok o, ig, v, parentPath ++ [PathE.pk k]⟩ :: es),
          ⟨k, v, parentPath ++ [PathE.pk k]⟩ :: tr)

mutual

/-- src/math.ts traverseObject(obj, fn, node): clone the input, walk
the clone's keys calling the visitor (collectEntries), then process all
entries through the async path if any transformResult was a Promise and
through the sync path otherwise, building the fresh result object. -/
def traverseObjectF (fn : Visitor) : Nat → LVal → List PathE →
    Except EErr LVal × List VCall
  | 0, _, _ => (Except.error EErr.nofuel, [])
  | Nat.succ n, obj, path =>
    match collectEntries fn path (fieldsOf (clone obj)) with
    | (Except.error e, tr) => (Except.error e, tr)
    | (Except.ok entries, tr) =>
      if entries.any (fun e => e.promise) then
        match processEntriesAsync fn n entries [] with
        | (Except.error e2, tr2) => (Except.error e2, tr ++ tr2)
        | (Except.ok fs, tr2) => (Except.ok (vobj none fs), tr ++ tr2)
      else
        match processEntriesSync fn n entries [] with
        | (Except.error e2, tr2) => (Except.error e2, tr ++ tr2)
        | (Except.ok fs, tr2) => (Except.ok (vobj none fs), tr ++ tr2)

/-- src/math.ts processEntriesSync: fold processEntryCommon (isAsync =
false) over the entries, writing result[newKey] = newValue.  In a sync
run every transformResult is a plain value; a recorded error entry
cannot occur (it would have thrown during collection) and is modelled
as the rethrow it would be. -/
def processEntriesSync (fn : Visitor) : Nat → List TEntry →
    List (String × LVal) → Except EErr (List (String × LVal)) × List VCall
  | 0, _, _ => (Except.error EErr.nofuel, [])
  | Nat.succ _, [], acc => (Except.ok acc, [])
  | Nat.succ n, e :: rest, acc =>
    match e.res with
    | Except.error er => (Except.error (EErr.thrown er), [])
    | Except.ok r =>
      match processEntryCommon fn n false e.key r e.path e.ignore e.originalValue with
      | (Except.error err, tr) => (Except.error err, tr)
      | (Except.ok kv, tr) =>
        match processEntriesSync fn n rest (setKey acc kv.1 kv.2) with
        | (Except.error err2, tr2) => (Except.error err2, tr ++ tr2)
        | (Except.ok fs, tr2) => (Except.ok fs, tr ++ tr2)

/-- src/math.ts processEntriesAsync: await each transformResult (a
rejected promise throws here), then processEntryCommon with isAsync =
true, writing result[newKey] = newValue. -/
def processEntriesAsync (fn : Visitor) : Nat → List TEntry →
    List (String × LVal) → Except EErr (List (String × LVal)) × List VCall
  | 0, _, _ => (Except.error EErr.nofuel, [])
  | Nat.succ _, [], acc => (Except.ok acc, [])
  | Nat.succ n, e :: rest, acc =>
    match e.res with
    | Except.error er => (Except.error (EErr.thrown er), [])
    | Except.ok r =>
      match processEntryCommon fn n true e.key r e.path e.ignore e.originalValue with
      | (Except.error err, tr) => (Except.error err, tr)
      | (Except.ok kv, tr) =>
        match processEntriesAsync fn n rest (setKey acc kv.1 kv.2) with
        | (Except.error err2, tr2) => (Except.error err2, tr ++ tr2)
        | (Except.ok fs, tr2) => (Except.ok fs, tr ++ tr2)

/-- src/math.ts processEntryCommon(key, resolvedResult, currentNode,
originalValue, fn, isAsync): resolve undefined to the original
key/value, then recurse. -/
def processEntryCommon (fn : Visitor) : Nat → Bool → String →
    Option (String × LVal) → List PathE → Bool → LVal →
    Except EErr (String × LVal) × List VCall
  | 0, _, _, _, _, _, _ => (Except.error EErr.nofuel, [])
  | Nat.succ n, isAsync, key, resolved, path, ig, ov =>
    processEntryValue fn n isAsync (resolveKV key ov resolved) path ig

/-- The recursion step of processEntryCommon on the resolved (newKey,
newValue) pair: if newValue is truthy and the node's children are not
ignored, a plain-object newValue is traversed (traverseObject at the
entry's node) and an array newValue has its truthy plain-object elements
traversed in place (processArrayAsync on the async path, the inline
for-loop on the sync path); every other value passes through. -/
def processEntryValue (fn : Visitor) : Nat → Bool → String × LVal →
    List PathE → Bool → Except EErr (String × LVal) × List VCall
  | 0, _, _, _, _ => (Except.error EErr.nofuel, [])
  | Nat.succ n, isAsync, (nk, nv), path, ig =>
    if truthy nv && !ig then
      if isPlainObject nv then
        match traverseObjectF fn n nv path with
        | (Except.error e, tr) => (Except.error e, tr)
        | (Except.ok r, tr) => (Except.ok (nk, r), tr)
      else if isArray nv then
        if isAsync then
          match processArrayAsync fn n (elemsOf nv) path 0 with
          | (Except.error e, tr) => (Except.error e, tr)
          | (Except.ok es2, tr) => (Except.ok (nk, varr (arrLabelOf nv) es2), tr)
        else
          match processArraySync fn n (elemsOf nv) path 0 with
          | (Except.error e, tr) => (Except.error e, tr)
          | (Except.ok es2, tr) => (Except.ok (nk, varr (arrLabelOf nv) es2), tr)
      else (Except.ok (nk, nv), [])
    else (Except.ok (nk, nv), [])

/-- The sync array loop inside processEntryCommon: each truthy
plain-object element is replaced in place by traverseObject at the
child node path ++ [idx]; other elements are left untouched. -/
def processArraySync (fn : Visitor) : Nat → List LVal → List PathE → Nat →
    Except EErr (List LVal) × List VCall
  | 0, _, _, _ => (Except.error EErr.nofuel, [])
  | Nat.succ _, [], _, _ => (Except.ok [], [])
  | Nat.succ n, e :: rest, path, idx =>
    if truthy e && isPlainObject e then
      match traverseObjectF fn n e (path ++ [PathE.pi idx]) with
      | (Except.error er, tr) => (Except.error er, tr)
      | (Except.ok r, tr) =>
        match processArraySync fn n rest path (idx + 1) with
        | (Except.error er2, tr2) => (Except.error er2, tr ++ tr2)
        | (Except.ok es2, tr2) => (Except.ok (r :: es2), tr ++ tr2)
    else
      match processArraySync fn n rest path (idx + 1) with
      | (Except.error er2, tr2) => (Except.error er2, tr2)
      | (Except.ok es2, tr2) => (Except.ok (e :: es2), tr2)

/-- src/math.ts processArrayAsync: the same in-place loop as the sync
array branch, with each traverseObject result awaited. -/
def processArrayAsync (fn : Visitor) : Nat → List LVal → List PathE → Nat →
    Except EErr (List LVal) × List VCall
  | 0, _, _, _ => (Except.error EErr.nofuel, [])
  | Nat.succ _, [], _, _ => (Except.ok [], [])
  | Nat.succ n, e :: rest, path, idx =>
    if truthy e && isPlainObject e then
      match traverseObjectF fn n e (path ++ [PathE.pi idx]) with
      | (Except.error er, tr) => (Except.error er, tr)
      | (Except.ok r, tr) =>
        match processArrayAsync fn n rest path (idx + 1) with
        | (Except.error er2, tr2) => (Except.error er2, tr ++ tr2)
        | (Except.ok es2, tr2) => (Except.ok (r :: es2), tr ++ tr2)
    else
      match processArrayAsync fn n rest path (idx + 1) with
      | (Except.error er2, tr2) => (Except.error er2, tr2)
      | (Except.ok es2, tr2) => (Except.ok (e :: es2), tr2)

end

/-- The sync top-level array branch of traverse: obj.map((value) =>
traverseObject(value, fn)) — each element gets a default TraverseNode
(empty path), and .map allocates a fresh array. -/
def arrayTopSync (fn : Visitor) (fuel : Nat) :
    List LVal → Except EErr (List LVal) × List VCall
  | [] => (Except.ok [], [])
  | v :: rest =>
    match traverseObjectF fn fuel v [] with
    | (Except.error e, tr) => (Except.error e, tr)
    | (Except.ok r, tr) =>
      match arrayTopSync fn fuel rest with
      | (Except.error e2, tr2) => (Except.error e2, tr ++ tr2)
      | (Except.ok rs, tr2) => (Except.ok (r :: rs), tr ++ tr2)

/-- The async top-level array branch of traverse: Promise.all(obj.map(
async (value) => await traverseObject(value, fn))) — same shape with
each result awaited. -/
def arrayTopAsync (fn : Visitor) (fuel : Nat) :
    List LVal → Except EErr (List LVal) × List VCall
  | [] => (Except.ok [], [])
  | v :: rest =>
    match traverseObjectF fn fuel v [] with
    | (Except.error e, tr) => (Except.error e, tr)
    | (Except.ok r, tr) =>
      match arrayTopAsync fn fuel rest with
      | (Except.error e2, tr2) => (Except.error e2, tr ++ tr2)
      | (Except.ok rs, tr2) => (Except.ok (r :: rs), tr ++ tr2)

/-- The body of traverse after mode detection: the async and the sync
case each map a top-level array element-wise, traverse a plain object,
and return any other value unchanged. -/
def traverseTop (fn : Visitor) (fuel : Nat) (isAsync : Bool) (obj : LVal) :
    Except EErr LVal × List VCall :=
  if isAsync then
    match obj with
    | varr _ es =>
      match arrayTopAsync fn fuel es with
      | (Except.error e, tr) => (Except.error e, tr)
      | (Except.ok rs, tr) => (Except.ok (varr none rs), tr)
    | vobj l fs => traverseObjectF fn fuel (vobj l fs) []
    | v => (Except.ok v, [])
  else
    match obj with
    | varr _ es =>
      match arrayTopSync fn fuel es with
      | (Except.error e, tr) => (Except.error e, tr)
      | (Except.ok rs, tr) => (Except.ok (varr none rs), tr)
    | vobj l fs => traverseObjectF fn fuel (vobj l fs) []
    | v => (Except.ok v, [])

/-- The synthetic probe invocation traverse performs first:
fn({key: 'test', value: 'test'}, new TraverseNode()). -/
def probeCall : VCall := ⟨"test", vstr "test", []⟩

/-- src/math.ts traverse(obj, fn): call the visitor once on the probe
pair; a synchronous throw there propagates out of traverse at once;
otherwise isAsync := (testResult instanceof Promise) selects the async
or the sync body for the whole call. -/
def traverseF (fn : Visitor) (fuel : Nat) (obj : LVal) :
    Except EErr LVal × List VCall :=
  match fn "test" (vstr "test") [] with
  | ⟨false, _, Except.error e⟩ => (Except.error (EErr.thrown e), [probeCall])
  | ⟨false, _, Except.ok _⟩ =>
    match traverseTop fn fuel false obj with
    | (r, tr) => (r, probeCall :: tr)
  | ⟨true, _, _⟩ =>
    match traverseTop fn fuel true obj with
    | (r, tr) => (r, probeCall :: tr)

/-- A visitor always returning undefined (no rewrites), synchronously. -/
def visitUndef : Visitor := fun _ _ _ => ⟨false, false, Except.ok none⟩

/-- A visitor that synchronously throws error 7 on every input. -/
def visitThrow7 : Visitor := fun _ _ _ => ⟨false, false, Except.error 7⟩

/-- A rewrite rule: what a visitor decides from its arguments — the
replacement {key, value} pair (or undefined), and whether it calls
node.ignoreChildren(). -/
def Rule := String → LVal → List PathE → Option (String × LVal) × Bool

/-- The synchronous visitor implementing a rule: plain return value,
never a Promise, never throws. -/
def syncVisitor (r : Rule) : Visitor := fun k v p =>
  ⟨false, (r k v p).2, Except.ok (r k v p).1⟩

/-- The asynchronous visitor implementing the same rule: every result is
a Promise that settles to the rule's value. -/
def asyncVisitor (r : Rule) : Visitor := fun k v p =>
  ⟨true, (r k v p).2, Except.ok (r k v p).1⟩

/-- The entry list collectEntries builds for a rule-backed visitor
(promise flag b on every entry). -/
def ruleEntries (r : Rule) (b : Bool) (path : List PathE) :
    List (String × LVal) → List TEntry
  | [] => []
  | (k, v) :: rest =>
    ⟨k, b, Except.ok (r k v (path ++ [PathE.pk k])).1,
      (r k v (path ++ [PathE.pk k])).2, v, path ++ [PathE.pk k]⟩ ::
      ruleEntries r b path rest

/-- The visitor-invocation trace of one collectEntries pass. -/
def ruleTrace (path : List PathE) : List (String × LVal) → List VCall
  | [] => []
  | (k, v) :: rest => ⟨k, v, path ++ [PathE.pk k]⟩ :: ruleTrace path rest

end Otskit

namespace Otskit

open LVal

/-- Sanity: the single-source instance of the variadic mergeWith is the
mergeTwo body, so the model's recursive call mergeTwo tv sv agrees with
the code's mergeWith(targetValue, sourceValue). -/
theorem mergeWith_single (t s : LVal) : mergeWith t [s] = mergeTwo t s := by
  cases s <;> cases t <;> rfl

example :
    clone (vobj (some 0) [("a", vstr "A"), ("b", vobj (some 1) [("c", vnum 1)])]) =
      vobj none [("a", vstr "A"), ("b", vobj none [("c", vnum 1)])] := rfl

example :
    clone (vobj (some 0) [("a", varr (some 1) [vobj (some 2) [("b", vnum 1)]])]) =
      vobj none [("a", varr none [vobj (some 2) [("b", vnum 1)]])] := rfl

example : clone (varr (some 0) [vnum 1]) = vobj none [] := rfl

-- deepMerge scenarios from the repository's merge tests
example :
    deepMerge [vobj (some 1) [("a", varr (some 2) [vstr "A", vstr "B"])],
               vobj (some 3) [("a", varr (some 4) [vstr "C"]), ("b", varr (some 5) [vstr "D"])]] =
      vobj none [("a", varr none [vstr "C"]), ("b", varr none [vstr "D"])] := rfl

example :
    deepMerge [vobj (some 1) [("a", vnum 1), ("nested", vobj (some 2) [("x", vnum 1)])],
               vobj (some 3) [("b", vnum 2), ("nested", vobj (some 4) [("y", vnum 2)])],
               vobj (some 5) [("c", vnum 3), ("nested", vobj (some 6) [("z", vnum 3)])]] =
      vobj none [("a", vnum 1),
                 ("nested", vobj none [("x", vnum 1), ("y", vnum 2), ("z", vnum 3)]),
                 ("b", vnum 2), ("c", vnum 3)] := rfl

example :
    deepMerge [vobj (some 1) [("d", vdate (some 2) 100)],
               vobj (some 3) [("d", vdate (some 4) 200)]] =
      vobj none [("d", vdate none 200)] := rfl

example :
    deepMerge [vobj (some 1) [("a", vnum 1), ("b", vnull), ("c", vundef)],
               vobj (some 2) [("b", vnum 2), ("c", vnum 3), ("d", vnull)]] =
      vobj none [("a", vnum 1), ("b", vnum 2), ("c", vnum 3), ("d", vnull)] := rfl

/-! ## Helper lemmas about field updates and identity-label lists -/
/-- setKey keeps an id-free field list id-free when the new value is
id-free. -/
theorem oaIdsFields_setKey (fs : List (String × LVal)) (k : String) (v : LVal)
    (hfs : oaIdsFields fs = []) (hv : oaIds v = []) :
    oaIdsFields (setKey fs k v) = [] := by
  induction fs with
  | nil => simp [setKey, oaIdsFields, hv]
  | cons hd rest ih =>
    obtain ⟨k', v'⟩ := hd
    simp [oaIdsFields, List.append_eq_nil] at hfs
    by_cases hk : k' == k
    · simp [setKey, hk, oaIdsFields, List.append_eq_nil, hv, hfs.2]
    · simp only [setKey, hk, Bool.false_eq_true, if_false]
      simp [oaIdsFields, List.append_eq_nil, hfs.1, ih hfs.2]

/-- Reading any key of an id-free field list yields an id-free value. -/
theorem oaIds_readKey (fs : List (String × LVal)) (k : String)
    (hfs : oaIdsFields fs = []) : oaIds (readKey fs k) = [] := by
  induction fs with
  | nil => simp [readKey, getKey, oaIds]
  | cons hd rest ih =>
    obtain ⟨k', v'⟩ := hd
    simp [oaIdsFields, List.append_eq_nil] at hfs
    by_cases hk : k' == k
    · simpa [readKey, getKey, hk] using hfs.1
    · simp only [readKey, getKey, hk, Bool.false_eq_true, if_false] at ih ⊢
      exact ih hfs.2

mutual

/-- A value without plain-object/array nodes contributes no
plain-object/array identity labels. -/
theorem noOA_oaIds (v : LVal) (h : noOA v = true) : oaIds v = [] := by
  match v with
  | vnull | vundef | vnum _ | vstr _ | vbool _ | vfunc _ | vopaque _
  | vdate _ _ | vregexp _ _ _ =>
    simp [oaIds]
  | vobj _ _ => simp [noOA] at h
  | varr _ _ => simp [noOA] at h
  | vmap l en =>
    simp only [noOA] at h
    simpa [oaIds] using noOAPairs_oaIds en h
  | vset l es =>
    simp only [noOA] at h
    simpa [oaIds] using noOAElems_oaIds es h

/-- List version of noOA_oaIds. -/
theorem noOAElems_oaIds (es : List LVal) (h : noOAElems es = true) :
    oaIdsElems es = [] := by
  match es with
  | [] => simp [oaIdsElems]
  | v :: rest =>
    simp only [noOAElems, Bool.and_eq_true] at h
    simp [oaIdsElems, List.append_eq_nil, noOA_oaIds v h.1,
      noOAElems_oaIds rest h.2]

/-- Pair-list version of noOA_oaIds. -/
theorem noOAPairs_oaIds (en : List (LVal × LVal)) (h : noOAPairs en = true) :
    oaIdsPairs en = [] := by
  match en with
  | [] => simp [oaIdsPairs]
  | (a, b) :: rest =>
    simp only [noOAPairs, Bool.and_eq_true] at h
    simp [oaIdsPairs, List.append_eq_nil, noOA_oaIds a h.1.1,
      noOA_oaIds b h.1.2, noOAPairs_oaIds rest h.2]

end

/-- oaIdsElems distributes over append. -/
theorem oaIdsElems_append (xs ys : List LVal) :
    oaIdsElems (xs ++ ys) = oaIdsElems xs ++ oaIdsElems ys := by
  induction xs with
  | nil => simp [oaIdsElems]
  | cons v rest ih => simp [oaIdsElems, ih]

/-- A share-free value that is neither a plain object nor an array has no
plain-object/array identity labels at all. -/
theorem shareFree_oaIds_flat (v : LVal) (hobj : isPlainObject v = false)
    (harr : isArray v = false) (h : shareFree v = true) : oaIds v = [] := by
  match v with
  | vnull | vundef | vnum _ | vstr _ | vbool _ | vfunc _ | vopaque _
  | vdate _ _ | vregexp _ _ _ => simp [oaIds]
  | vobj _ _ => simp [isPlainObject] at hobj
  | varr _ _ => simp [isArray] at harr
  | vmap l en => simpa [oaIds] using noOAPairs_oaIds en (by simpa [shareFree] using h)
  | vset l es => simpa [oaIds] using noOAElems_oaIds es (by simpa [shareFree] using h)

/-- The second component of a list member is smaller than the list. -/
theorem sizeOf_snd_lt_list {p : String × LVal} {l : List (String × LVal)}
    (h : p ∈ l) : sizeOf p.2 < sizeOf l := by
  have h1 := List.sizeOf_lt_of_mem h
  obtain ⟨k, v⟩ := p
  simp only [Prod.mk.sizeOf_spec] at h1
  simp only []
  omega

/-- The source-key loop of cloneWithOriginalBehavior preserves freshness,
stated relative to an oracle for the recursive cloneWithOriginalBehavior
calls on the loop's source values. -/
theorem cwobFields_fresh_aux (N : Nat)
    (rec : ∀ b sv, sizeOf sv < N → oaIds b = [] → shareFree sv = true →
      oaIds (cloneWithOriginalBehavior b sv) = []) :
    ∀ sfs tfs, (∀ p ∈ sfs, sizeOf p.2 < N) →
      oaIdsFields tfs = [] → shareFreeFields sfs = true →
      oaIdsFields (cwobFields tfs sfs) = [] := by
  intro sfs
  induction sfs with
  | nil => intro tfs _ h1 _; exact h1
  | cons hd rest ih =>
    obtain ⟨k, sv⟩ := hd
    intro tfs hN h1 h2
    simp only [shareFreeFields, Bool.and_eq_true] at h2
    have hNrest : ∀ p ∈ rest, sizeOf p.2 < N := fun p hp => hN p (by simp [hp])
    have hNsv : sizeOf sv < N := hN (k, sv) (by simp)
    cases sv
    case varr l es =>
      rw [cwobFields.eq_2]
      by_cases hres : isReservedKey k = true
      · rw [if_pos hres]; exact ih tfs hNrest h1 h2.2
      · rw [if_neg hres]
        refine ih _ hNrest (oaIdsFields_setKey _ _ _ h1 ?_) h2.2
        refine rec _ (varr l es) hNsv ?_ h2.1
        by_cases htr : truthy (readKey tfs k) = true
        · rw [if_pos htr]; exact oaIds_readKey tfs k h1
        · rw [if_neg htr]; simp [oaIds, oaIdsElems, optId]
    case vobj l sfs' =>
      rw [cwobFields.eq_3]
      by_cases hres : isReservedKey k = true
      · rw [if_pos hres]; exact ih tfs hNrest h1 h2.2
      · rw [if_neg hres]
        refine ih _ hNrest (oaIdsFields_setKey _ _ _ h1 ?_) h2.2
        refine rec _ (vobj l sfs') hNsv ?_ h2.1
        by_cases htr : truthy (readKey tfs k) = true
        · rw [if_pos htr]; exact oaIds_readKey tfs k h1
        · rw [if_neg htr]; simp [oaIds, oaIdsFields, optId]
    all_goals (
      rw [cwobFields.eq_4 _ _ _ _ (fun _ _ h => LVal.noConfusion h)
        (fun _ _ h => LVal.noConfusion h)]
      by_cases hres : isReservedKey k = true
      · rw [if_pos hres]; exact ih tfs hNrest h1 h2.2
      · rw [if_neg hres]
        refine ih _ hNrest (oaIdsFields_setKey _ _ _ h1 ?_) h2.2
        first
          | (simp only [oaIds]; done)
          | simpa [oaIds] using noOAPairs_oaIds _ (by simpa [shareFree] using h2.1)
          | simpa [oaIds] using noOAElems_oaIds _ (by simpa [shareFree] using h2.1))

/-- Every value has positive default size. -/
theorem lval_sizeOf_pos (v : LVal) : 0 < sizeOf v := by
  cases v <;> simp_arith

/-- Freshness invariant of the clone recursion, by strong induction on the
size of the source: starting from a target tree without pre-existing
plain-object/array nodes, merging in a share-free source yields a tree
without pre-existing plain-object/array nodes. -/
theorem cwob_fresh_n (n : Nat) :
    ∀ t s, sizeOf s ≤ n → oaIds t = [] → shareFree s = true →
      oaIds (cloneWithOriginalBehavior t s) = [] := by
  induction n with
  | zero =>
    intro t s hsz _ _
    exact absurd hsz (by have := lval_sizeOf_pos s; omega)
  | succ n ihn =>
    intro t s hsz ht hs
    cases t <;> cases s <;> try exact ht
    case varr.varr l es l' es' =>
      simp only [oaIds, List.append_eq_nil] at ht
      simp only [shareFree] at hs
      simp [cloneWithOriginalBehavior, oaIds, List.append_eq_nil, oaIdsElems_append,
        ht.1, ht.2, noOAElems_oaIds es' hs]
    case vobj.vobj l fs l' sfs =>
      simp only [LVal.vobj.sizeOf_spec] at hsz
      simp only [oaIds, List.append_eq_nil] at ht
      simp only [shareFree] at hs
      simp only [cloneWithOriginalBehavior, oaIds, List.append_eq_nil]
      refine ⟨ht.1, cwobFields_fresh_aux (sizeOf sfs)
        (fun b sv hlt hb hsv => ihn b sv (by omega) hb hsv) sfs fs
        (fun p hp => sizeOf_snd_lt_list hp) ht.2 hs⟩

/-- Freshness invariant of the clone recursion. -/
theorem cwob_fresh (t s : LVal) (ht : oaIds t = []) (hs : shareFree s = true) :
    oaIds (cloneWithOriginalBehavior t s) = [] :=
  cwob_fresh_n (sizeOf s) t s le_rfl ht hs

/-- Field-list version of cwob_fresh. -/
theorem cwobFields_fresh (tfs sfs : List (String × LVal))
    (h1 : oaIdsFields tfs = []) (h2 : shareFreeFields sfs = true) :
    oaIdsFields (cwobFields tfs sfs) = [] :=
  cwobFields_fresh_aux (sizeOf sfs)
    (fun b sv _ hb hsv => cwob_fresh b sv hb hsv) sfs tfs
    (fun _ hp => sizeOf_snd_lt_list hp) h1 h2

/-- Claim C1 is false as stated: clone copies array elements by reference
(cloneWithOriginalBehavior pushes the source array's elements onto the
fresh array), so the plain-object node with identity 2, which lives
inside an array of the input, occurs in both the input and its clone —
the clone shares a nested plain-object node with the original, and
mutating it through the clone mutates the original. -/
theorem clone_shares_array_element_node :
    clone c1Input =
      vobj none [("a", varr none [vobj (some 2) [("b", vnum 1)]])] ∧
      (oaIds (clone c1Input)).inter (oaIds c1Input) = [2] :=
  ⟨rfl, rfl⟩

/-- Claim C1 (corrected): for every plain-object/array tree in which no
plain object or array occurs inside an array (or inside a Map or Set,
which clone also shares by reference), the clone shares no
plain-object/array node with the original: every plain-object/array node
of the clone is a fresh allocation (identity label none), so the clone's
plain-object/array identity list is empty and in particular disjoint from
the original's. -/
theorem clone_fresh_of_shareFree (x : LVal) (h : shareFree x = true) :
    oaIds (clone x) = [] :=
  cwob_fresh (vobj none []) x rfl h

/-- Witness for clone_fresh_of_shareFree at a concrete share-free input
with nested plain objects and an array of scalars. -/
theorem clone_fresh_of_shareFree_witness :
    shareFree (vobj (some 5) [("a", vnum 1),
      ("b", varr (some 6) [vstr "x", vnum 2]),
      ("c", vobj (some 7) [("d", vbool true)])]) = true ∧
    oaIds (clone (vobj (some 5) [("a", vnum 1),
      ("b", varr (some 6) [vstr "x", vnum 2]),
      ("c", vobj (some 7) [("d", vbool true)])])) = [] :=
  ⟨rfl, clone_fresh_of_shareFree _ rfl⟩

/-! ## Claim C10: clone of a non-plain-object top-level value -/
/-- Claim C10: for every top-level input that is not a plain object
(arrays, Dates, RegExps, Maps, Sets, functions, class instances, and also
primitives), clone returns a fresh empty plain object: the target {} of
cloneWithOriginalBehavior is returned untouched because the source fails
the isMergableObject test.  The result is the literal fresh empty object
(label none), so it is neither the input nor a copy of its contents. -/
theorem clone_nonPlain_empty (v : LVal) (h : isPlainObject v = false) :
    clone v = vobj none [] := by
  cases v <;> first
    | rfl
    | simp [isPlainObject] at h

/-- Witness for clone_nonPlain_empty: cloning a non-empty array yields
the fresh empty object, not the array and not a copy of its contents. -/
theorem clone_nonPlain_empty_witness :
    isPlainObject (varr (some 3) [vnum 1, vnum 2]) = false ∧
    clone (varr (some 3) [vnum 1, vnum 2]) = vobj none [] :=
  ⟨rfl, clone_nonPlain_empty (varr (some 3) [vnum 1, vnum 2]) rfl⟩

/-! ## Freshness of the merge engine (claim C2 machinery) -/
/-- Members of a share-free field list are share-free. -/
theorem shareFreeFields_mem {fs : List (String × LVal)} {p : String × LVal}
    (h : shareFreeFields fs = true) (hp : p ∈ fs) : shareFree p.2 = true := by
  induction fs with
  | nil => cases hp
  | cons hd rest ih =>
    obtain ⟨k, v⟩ := hd
    simp only [shareFreeFields, Bool.and_eq_true] at h
    rcases List.mem_cons.mp hp with h1 | h1
    · rw [h1]; exact h.1
    · exact ih h.2 h1

/-- Members of an id-free field list have id-free values. -/
theorem oaIdsFields_mem {fs : List (String × LVal)} {p : String × LVal}
    (h : oaIdsFields fs = []) (hp : p ∈ fs) : oaIds p.2 = [] := by
  induction fs with
  | nil => cases hp
  | cons hd rest ih =>
    obtain ⟨k, v⟩ := hd
    simp only [oaIdsFields, List.append_eq_nil] at h
    rcases List.mem_cons.mp hp with h1 | h1
    · rw [h1]; exact h.1
    · exact ih h.2 h1

/-- The key-copy loop of cloneValue preserves id-freeness, relative to an
oracle for the recursive cloneValue calls. -/
theorem cloneValueFields_fresh_aux (N : Nat) (C : LVal → Prop)
    (rec : ∀ v, sizeOf v < N → C v → oaIds (cloneValue v) = []) :
    ∀ fs acc, (∀ p ∈ fs, sizeOf p.2 < N) → (∀ p ∈ fs, C p.2) →
      oaIdsFields acc = [] → oaIdsFields (cloneValueFields acc fs) = [] := by
  intro fs
  induction fs with
  | nil => intro acc _ _ hacc; exact hacc
  | cons hd rest ih =>
    obtain ⟨k, v⟩ := hd
    intro acc hN hC hacc
    rw [cloneValueFields.eq_2]
    refine ih _ (fun p hp => hN p (by simp [hp])) (fun p hp => hC p (by simp [hp]))
      (oaIdsFields_setKey _ _ _ hacc ?_)
    exact rec v (hN (k, v) (by simp)) (hC (k, v) (by simp))

/-- cloneValue of a share-free value yields an id-free value (all its
plain-object/array nodes are fresh). -/
theorem cloneValue_fresh_n (n : Nat) :
    ∀ v, sizeOf v ≤ n → shareFree v = true → oaIds (cloneValue v) = [] := by
  induction n with
  | zero =>
    intro v hsz _
    exact absurd hsz (by have := lval_sizeOf_pos v; omega)
  | succ n ihn =>
    intro v hsz hs
    cases v
    case vobj l fs =>
      simp only [LVal.vobj.sizeOf_spec] at hsz
      simp only [shareFree] at hs
      simp only [cloneValue, oaIds, List.append_eq_nil, optId]
      refine ⟨trivial, cloneValueFields_fresh_aux (sizeOf fs) (fun v => shareFree v = true)
        (fun v hlt hv => ihn v (by omega) hv) fs []
        (fun p hp => sizeOf_snd_lt_list hp)
        (fun p hp => shareFreeFields_mem hs hp) rfl⟩
    case varr l es =>
      simp only [shareFree] at hs
      simpa [cloneValue, oaIds, optId] using noOAElems_oaIds es hs
    case vmap l en =>
      simp only [shareFree] at hs
      simpa [cloneValue, cloneSpecialObject, oaIds] using noOAPairs_oaIds en hs
    case vset l es =>
      simp only [shareFree] at hs
      simpa [cloneValue, cloneSpecialObject, oaIds] using noOAElems_oaIds es hs
    all_goals simp [cloneValue, cloneSpecialObject, oaIds]

/-- cloneValue of an id-free value is id-free. -/
theorem cloneValue_keeps_fresh_n (n : Nat) :
    ∀ v, sizeOf v ≤ n → oaIds v = [] → oaIds (cloneValue v) = [] := by
  induction n with
  | zero =>
    intro v hsz _
    exact absurd hsz (by have := lval_sizeOf_pos v; omega)
  | succ n ihn =>
    intro v hsz hv
    cases v
    case vobj l fs =>
      simp only [LVal.vobj.sizeOf_spec] at hsz
      simp only [oaIds, List.append_eq_nil] at hv
      simp only [cloneValue, oaIds, List.append_eq_nil, optId]
      refine ⟨trivial, cloneValueFields_fresh_aux (sizeOf fs) (fun v => oaIds v = [])
        (fun v hlt hv => ihn v (by omega) hv) fs []
        (fun p hp => sizeOf_snd_lt_list hp)
        (fun p hp => oaIdsFields_mem hv.2 hp) rfl⟩
    case varr l es =>
      simp only [oaIds, List.append_eq_nil] at hv
      simpa [cloneValue, oaIds, optId] using hv.2
    case vmap l en =>
      simpa [cloneValue, cloneSpecialObject, oaIds] using hv
    case vset l es =>
      simpa [cloneValue, cloneSpecialObject, oaIds] using hv
    all_goals simp [cloneValue, cloneSpecialObject, oaIds]

/-- cloneValue of a share-free value is id-free. -/
theorem cloneValue_fresh (v : LVal) (h : shareFree v = true) :
    oaIds (cloneValue v) = [] :=
  cloneValue_fresh_n (sizeOf v) v le_rfl h

/-- cloneValue of an id-free value is id-free. -/
theorem cloneValue_keeps_fresh (v : LVal) (h : oaIds v = []) :
    oaIds (cloneValue v) = [] :=
  cloneValue_keeps_fresh_n (sizeOf v) v le_rfl h

/-- The target pass of the merge body turns an id-free target field list
into an id-free result accumulator. -/
theorem mergeTargetFields_fresh :
    ∀ tfs acc, (∀ p ∈ tfs, oaIds p.2 = []) → oaIdsFields acc = [] →
      oaIdsFields (mergeTargetFields acc tfs) = [] := by
  intro tfs
  induction tfs with
  | nil => intro acc _ hacc; exact hacc
  | cons hd rest ih =>
    obtain ⟨k, v⟩ := hd
    intro acc hv hacc
    rw [mergeTargetFields.eq_2]
    by_cases hres : isReservedKey k = true
    · rw [if_pos hres]
      exact ih _ (fun p hp => hv p (by simp [hp])) hacc
    · rw [if_neg hres]
      exact ih _ (fun p hp => hv p (by simp [hp]))
        (oaIdsFields_setKey _ _ _ hacc
          (cloneValue_keeps_fresh _ (hv (k, v) (by simp))))

/-- The source pass of the merge body preserves id-freeness, relative to
an oracle for the recursive single-source merges. -/
theorem mergeSourceFields_fresh_aux (N : Nat)
    (rec : ∀ t s, sizeOf s < N → oaIds t = [] → shareFree s = true →
      oaIds (mergeTwo t s) = []) :
    ∀ sfs acc, (∀ p ∈ sfs, sizeOf p.2 < N) → (∀ p ∈ sfs, shareFree p.2 = true) →
      oaIdsFields acc = [] → oaIdsFields (mergeSourceFields acc sfs) = [] := by
  intro sfs
  induction sfs with
  | nil => intro acc _ _ hacc; exact hacc
  | cons hd rest ih =>
    obtain ⟨k, sv⟩ := hd
    intro acc hN hC hacc
    have hNrest : ∀ p ∈ rest, sizeOf p.2 < N := fun p hp => hN p (by simp [hp])
    have hCrest : ∀ p ∈ rest, shareFree p.2 = true := fun p hp => hC p (by simp [hp])
    have hNsv : sizeOf sv < N := hN (k, sv) (by simp)
    have hCsv : shareFree sv = true := hC (k, sv) (by simp)
    cases sv
    case vnull =>
      rw [mergeSourceFields.eq_2]
      by_cases hres : isReservedKey k = true
      · rw [if_pos hres]; exact ih _ hNrest hCrest hacc
      · rw [if_neg hres]
        exact ih _ hNrest hCrest (oaIdsFields_setKey _ _ _ hacc (by simp [oaIds]))
    case vundef =>
      rw [mergeSourceFields.eq_3]
      by_cases hres : isReservedKey k = true
      · rw [if_pos hres]; exact ih _ hNrest hCrest hacc
      · rw [if_neg hres]
        exact ih _ hNrest hCrest (oaIdsFields_setKey _ _ _ hacc (by simp [oaIds]))
    case varr l es =>
      rw [mergeSourceFields.eq_4]
      by_cases hres : isReservedKey k = true
      · rw [if_pos hres]; exact ih _ hNrest hCrest hacc
      · rw [if_neg hres]
        refine ih _ hNrest hCrest (oaIdsFields_setKey _ _ _ hacc ?_)
        simp only [shareFree] at hCsv
        simpa [oaIds, optId] using noOAElems_oaIds es hCsv
    case vobj l sfs' =>
      rw [mergeSourceFields.eq_5]
      by_cases hres : isReservedKey k = true
      · rw [if_pos hres]; exact ih _ hNrest hCrest hacc
      · rw [if_neg hres]
        by_cases hpl : isPlainObject (readKey acc k) = true
        · rw [if_pos hpl]
          exact ih _ hNrest hCrest (oaIdsFields_setKey _ _ _ hacc
            (rec _ _ hNsv (oaIds_readKey acc k hacc) hCsv))
        · rw [if_neg hpl]
          exact ih _ hNrest hCrest (oaIdsFields_setKey _ _ _ hacc
            (cloneValue_fresh _ hCsv))
    all_goals (
      rw [mergeSourceFields.eq_6 _ _ _ _ (fun h => LVal.noConfusion h)
        (fun h => LVal.noConfusion h) (fun _ _ h => LVal.noConfusion h)
        (fun _ _ h => LVal.noConfusion h)]
      by_cases hres : isReservedKey k = true
      · rw [if_pos hres]; exact ih _ hNrest hCrest hacc
      · rw [if_neg hres]
        exact ih _ hNrest hCrest (oaIdsFields_setKey _ _ _ hacc
          (cloneValue_fresh _ hCsv)))

/-- The single-source merge body yields an id-free tree from an id-free
target and a share-free source. -/
theorem mergeTwo_fresh_n (n : Nat) :
    ∀ t s, sizeOf s ≤ n → oaIds t = [] → shareFree s = true →
      oaIds (mergeTwo t s) = [] := by
  induction n with
  | zero =>
    intro t s hsz _ _
    exact absurd hsz (by have := lval_sizeOf_pos s; omega)
  | succ n ihn =>
    intro t s hsz ht hs
    cases t <;> cases s <;> try exact ht
    case vobj.vobj l tfs l' sfs =>
      simp only [LVal.vobj.sizeOf_spec] at hsz
      simp only [oaIds, List.append_eq_nil] at ht
      simp only [shareFree] at hs
      simp only [mergeTwo, oaIds, List.append_eq_nil, optId]
      refine ⟨trivial, mergeSourceFields_fresh_aux (sizeOf sfs)
        (fun t' s' hlt ht' hs' => ihn t' s' (by omega) ht' hs') sfs _
        (fun p hp => sizeOf_snd_lt_list hp)
        (fun p hp => shareFreeFields_mem hs hp)
        (mergeTargetFields_fresh tfs [] (fun p hp => oaIdsFields_mem ht.2 hp) rfl)⟩

/-- mergeTwo freshness. -/
theorem mergeTwo_fresh (t s : LVal) (ht : oaIds t = [])
    (hs : shareFree s = true) : oaIds (mergeTwo t s) = [] :=
  mergeTwo_fresh_n (sizeOf s) t s le_rfl ht hs

/-- The variadic mergeWith fold preserves id-freeness of the running
target when all sources are share-free. -/
theorem mergeWith_fresh :
    ∀ sources target, oaIds target = [] → sources.all shareFree = true →
      oaIds (mergeWith target sources) = [] := by
  intro sources
  induction sources with
  | nil => intro target ht _; exact ht
  | cons s rest ih =>
    intro target ht hall
    simp only [List.all_cons, Bool.and_eq_true] at hall
    cases s <;> first
      | exact ht
      | exact ih _ (mergeTwo_fresh _ _ ht hall.1) hall.2

/-- Claim C2 is false as stated: deepMerge replaces an array by the
shallow copy [...source], whose elements are the source's references, so
the plain-object node with identity 3 that lives inside the source's
array also occurs inside the merged result — the result shares a nested
plain-object node with an input. -/
theorem deepMerge_shares_array_element_node :
    deepMerge [vobj (some 0) [], c2Source] =
      vobj none [("a", varr none [vobj (some 3) [("b", vnum 1)]])] ∧
      (oaIds (deepMerge [vobj (some 0) [], c2Source])).inter (oaIds c2Source) = [3] :=
  ⟨rfl, rfl⟩

/-- Claim C2 (corrected): when no plain object or array occurs inside any
array, Map or Set of the sources (all of which the merge engine copies
shallowly, keeping the elements by reference), the tree returned by
deepMerge contains no pre-existing plain-object/array node at all: every
such node is freshly allocated, so the result shares no plain-object or
array node with any input. -/
theorem deepMerge_fresh_of_shareFree (sources : List LVal)
    (h : sources.all shareFree = true) : oaIds (deepMerge sources) = [] :=
  mergeWith_fresh sources (vobj none []) rfl h

/-- Witness for deepMerge_fresh_of_shareFree at two concrete share-free
sources with nested objects and an array of scalars. -/
theorem deepMerge_fresh_of_shareFree_witness :
    ([vobj (some 1) [("a", vobj (some 2) [("x", vnum 1)])],
      vobj (some 3) [("a", vobj (some 4) [("y", vnum 2)]),
        ("b", varr (some 5) [vstr "s"])]].all shareFree) = true ∧
    oaIds (deepMerge [vobj (some 1) [("a", vobj (some 2) [("x", vnum 1)])],
      vobj (some 3) [("a", vobj (some 4) [("y", vnum 2)]),
        ("b", varr (some 5) [vstr "s"])]]) = [] :=
  ⟨rfl, deepMerge_fresh_of_shareFree _ rfl⟩

/-- Reading the key just written. -/
theorem getKey_setKey_same (fs : List (String × LVal)) (k : String) (v : LVal) :
    getKey (setKey fs k v) k = some v := by
  induction fs with
  | nil => simp [setKey, getKey]
  | cons hd rest ih =>
    obtain ⟨k', v'⟩ := hd
    by_cases hk : (k' == k) = true
    · simp [setKey, hk, getKey]
    · simp only [setKey, hk, Bool.false_eq_true, if_false, getKey]
      simpa [hk] using ih

/-- Writing another key does not change a read. -/
theorem getKey_setKey_ne (fs : List (String × LVal)) (k q : String) (v : LVal)
    (h : (k == q) = false) : getKey (setKey fs k v) q = getKey fs q := by
  induction fs with
  | nil => simp [setKey, getKey, h]
  | cons hd rest ih =>
    obtain ⟨k', v'⟩ := hd
    by_cases hk : (k' == k) = true
    · have : (k' == q) = false := by
        have h1 : k' = k := by simpa using hk
        simpa [h1] using h
      simp [setKey, hk, getKey, this, h]
    · simp only [setKey, hk, Bool.false_eq_true, if_false, getKey]
      by_cases hq : (k' == q) = true
      · simp [hq]
      · simp [hq, ih]

/-- The merge source pass leaves keys it never iterates over unchanged. -/
theorem mergeSourceFields_getKey_absent :
    ∀ (sfs acc : List (String × LVal)) (q : String),
      (sfs.all (fun p => p.1 != q)) = true →
      getKey (mergeSourceFields acc sfs) q = getKey acc q := by
  intro sfs
  induction sfs with
  | nil => intro acc q _; rfl
  | cons hd rest ih =>
    obtain ⟨k, sv⟩ := hd
    intro acc q hall
    simp only [List.all_cons, Bool.and_eq_true, bne] at hall
    have hk : (k == q) = false := by simpa using hall.1
    have hstep : ∀ acc', getKey (mergeSourceFields acc' rest) q = getKey acc' q :=
      fun acc' => ih acc' q (by simpa [List.all_eq_true, bne] using hall.2)
    cases sv with
    | vnull =>
      rw [mergeSourceFields.eq_2]
      by_cases hres : isReservedKey k = true
      · rw [if_pos hres]; exact hstep acc
      · rw [if_neg hres]; rw [hstep _, getKey_setKey_ne _ _ _ _ hk]
    | vundef =>
      rw [mergeSourceFields.eq_3]
      by_cases hres : isReservedKey k = true
      · rw [if_pos hres]; exact hstep acc
      · rw [if_neg hres]; rw [hstep _, getKey_setKey_ne _ _ _ _ hk]
    | varr al aes =>
      rw [mergeSourceFields.eq_4]
      by_cases hres : isReservedKey k = true
      · rw [if_pos hres]; exact hstep acc
      · rw [if_neg hres]; rw [hstep _, getKey_setKey_ne _ _ _ _ hk]
    | vobj ol ofs =>
      rw [mergeSourceFields.eq_5]
      by_cases hres : isReservedKey k = true
      · rw [if_pos hres]; exact hstep acc
      · rw [if_neg hres]
        by_cases hpl : isPlainObject (readKey acc k) = true
        · rw [if_pos hpl]; rw [hstep _, getKey_setKey_ne _ _ _ _ hk]
        · rw [if_neg hpl]; rw [hstep _, getKey_setKey_ne _ _ _ _ hk]
    | vnum n =>
      rw [mergeSourceFields.eq_6 _ _ _ _ (fun h => LVal.noConfusion h)
        (fun h => LVal.noConfusion h) (fun _ _ h => LVal.noConfusion h)
        (fun _ _ h => LVal.noConfusion h)]
      by_cases hres : isReservedKey k = true
      · rw [if_pos hres]; exact hstep acc
      · rw [if_neg hres]; rw [hstep _, getKey_setKey_ne _ _ _ _ hk]
    | vstr s =>
      rw [mergeSourceFields.eq_6 _ _ _ _ (fun h => LVal.noConfusion h)
        (fun h => LVal.noConfusion h) (fun _ _ h => LVal.noConfusion h)
        (fun _ _ h => LVal.noConfusion h)]
      by_cases hres : isReservedKey k = true
      · rw [if_pos hres]; exact hstep acc
      · rw [if_neg hres]; rw [hstep _, getKey_setKey_ne _ _ _ _ hk]
    | vbool b =>
      rw [mergeSourceFields.eq_6 _ _ _ _ (fun h => LVal.noConfusion h)
        (fun h => LVal.noConfusion h) (fun _ _ h => LVal.noConfusion h)
        (fun _ _ h => LVal.noConfusion h)]
      by_cases hres : isReservedKey k = true
      · rw [if_pos hres]; exact hstep acc
      · rw [if_neg hres]; rw [hstep _, getKey_setKey_ne _ _ _ _ hk]
    | vdate dl dt =>
      rw [mergeSourceFields.eq_6 _ _ _ _ (fun h => LVal.noConfusion h)
        (fun h => LVal.noConfusion h) (fun _ _ h => LVal.noConfusion h)
        (fun _ _ h => LVal.noConfusion h)]
      by_cases hres : isReservedKey k = true
      · rw [if_pos hres]; exact hstep acc
      · rw [if_neg hres]; rw [hstep _, getKey_setKey_ne _ _ _ _ hk]
    | vregexp rl rs rf =>
      rw [mergeSourceFields.eq_6 _ _ _ _ (fun h => LVal.noConfusion h)
        (fun h => LVal.noConfusion h) (fun _ _ h => LVal.noConfusion h)
        (fun _ _ h => LVal.noConfusion h)]
      by_cases hres : isReservedKey k = true
      · rw [if_pos hres]; exact hstep acc
      · rw [if_neg hres]; rw [hstep _, getKey_setKey_ne _ _ _ _ hk]
    | vmap ml men =>
      rw [mergeSourceFields.eq_6 _ _ _ _ (fun h => LVal.noConfusion h)
        (fun h => LVal.noConfusion h) (fun _ _ h => LVal.noConfusion h)
        (fun _ _ h => LVal.noConfusion h)]
      by_cases hres : isReservedKey k = true
      · rw [if_pos hres]; exact hstep acc
      · rw [if_neg hres]; rw [hstep _, getKey_setKey_ne _ _ _ _ hk]
    | vset sl ses =>
      rw [mergeSourceFields.eq_6 _ _ _ _ (fun h => LVal.noConfusion h)
        (fun h => LVal.noConfusion h) (fun _ _ h => LVal.noConfusion h)
        (fun _ _ h => LVal.noConfusion h)]
      by_cases hres : isReservedKey k = true
      · rw [if_pos hres]; exact hstep acc
      · rw [if_neg hres]; rw [hstep _, getKey_setKey_ne _ _ _ _ hk]
    | vfunc fid =>
      rw [mergeSourceFields.eq_6 _ _ _ _ (fun h => LVal.noConfusion h)
        (fun h => LVal.noConfusion h) (fun _ _ h => LVal.noConfusion h)
        (fun _ _ h => LVal.noConfusion h)]
      by_cases hres : isReservedKey k = true
      · rw [if_pos hres]; exact hstep acc
      · rw [if_neg hres]; rw [hstep _, getKey_setKey_ne _ _ _ _ hk]
    | vopaque ol =>
      rw [mergeSourceFields.eq_6 _ _ _ _ (fun h => LVal.noConfusion h)
        (fun h => LVal.noConfusion h) (fun _ _ h => LVal.noConfusion h)
        (fun _ _ h => LVal.noConfusion h)]
      by_cases hres : isReservedKey k = true
      · rw [if_pos hres]; exact hstep acc
      · rw [if_neg hres]; rw [hstep _, getKey_setKey_ne _ _ _ _ hk]

/-- After the merge source pass, a non-reserved key holding an array in
the (unique-keyed) source reads as a fresh shallow copy of that array:
new array node, same element references. -/
theorem mergeSourceFields_getKey_array :
    ∀ (sfs acc : List (String × LVal)) (k : String) (al : OId) (es : List LVal),
      isReservedKey k = false → uniqKeys sfs = true →
      getKey sfs k = some (varr al es) →
      getKey (mergeSourceFields acc sfs) k = some (varr none es) := by
  intro sfs
  induction sfs with
  | nil => intro acc k al es _ _ hget; simp [getKey] at hget
  | cons hd rest ih =>
    obtain ⟨k', sv⟩ := hd
    intro acc k al es hres huniq hget
    simp only [uniqKeys, Bool.and_eq_true] at huniq
    by_cases hk : (k' == k) = true
    · have hkeq : k' = k := by simpa using hk
      subst hkeq
      simp only [getKey] at hget
      rw [if_pos (beq_self_eq_true k')] at hget
      simp only [Option.some.injEq] at hget
      subst hget
      rw [mergeSourceFields.eq_4]
      rw [if_neg (by simp [hres])]
      rw [mergeSourceFields_getKey_absent rest _ k' (by simpa using huniq.1)]
      exact getKey_setKey_same _ _ _
    · simp only [getKey, hk, Bool.false_eq_true, if_false] at hget
      have htail : ∀ acc', getKey (mergeSourceFields acc' rest) k = some (varr none es) :=
        fun acc' => ih acc' k al es hres huniq.2 hget
      cases sv with
      | vnull =>
        rw [mergeSourceFields.eq_2]
        by_cases hres2 : isReservedKey k' = true
        · rw [if_pos hres2]; exact htail acc
        · rw [if_neg hres2]; exact htail _
      | vundef =>
        rw [mergeSourceFields.eq_3]
        by_cases hres2 : isReservedKey k' = true
        · rw [if_pos hres2]; exact htail acc
        · rw [if_neg hres2]; exact htail _
      | varr al2 aes =>
        rw [mergeSourceFields.eq_4]
        by_cases hres2 : isReservedKey k' = true
        · rw [if_pos hres2]; exact htail acc
        · rw [if_neg hres2]; exact htail _
      | vobj ol ofs =>
        rw [mergeSourceFields.eq_5]
        by_cases hres2 : isReservedKey k' = true
        · rw [if_pos hres2]; exact htail acc
        · rw [if_neg hres2]
          by_cases hpl : isPlainObject (readKey acc k') = true
          · rw [if_pos hpl]; exact htail _
          · rw [if_neg hpl]; exact htail _
      | vnum n =>
        rw [mergeSourceFields.eq_6 _ _ _ _ (fun h => LVal.noConfusion h)
          (fun h => LVal.noConfusion h) (fun _ _ h => LVal.noConfusion h)
          (fun _ _ h => LVal.noConfusion h)]
        by_cases hres2 : isReservedKey k' = true
        · rw [if_pos hres2]; exact htail acc
        · rw [if_neg hres2]; exact htail _
      | vstr s =>
        rw [mergeSourceFields.eq_6 _ _ _ _ (fun h => LVal.noConfusion h)
          (fun h => LVal.noConfusion h) (fun _ _ h => LVal.noConfusion h)
          (fun _ _ h => LVal.noConfusion h)]
        by_cases hres2 : isReservedKey k' = true
        · rw [if_pos hres2]; exact htail acc
        · rw [if_neg hres2]; exact htail _
      | vbool b =>
        rw [mergeSourceFields.eq_6 _ _ _ _ (fun h => LVal.noConfusion h)
          (fun h => LVal.noConfusion h) (fun _ _ h => LVal.noConfusion h)
          (fun _ _ h => LVal.noConfusion h)]
        by_cases hres2 : isReservedKey k' = true
        · rw [if_pos hres2]; exact htail acc
        · rw [if_neg hres2]; exact htail _
      | vdate dl dt =>
        rw [mergeSourceFields.eq_6 _ _ _ _ (fun h => LVal.noConfusion h)
          (fun h => LVal.noConfusion h) (fun _ _ h => LVal.noConfusion h)
          (fun _ _ h => LVal.noConfusion h)]
        by_cases hres2 : isReservedKey k' = true
        · rw [if_pos hres2]; exact htail acc
        · rw [if_neg hres2]; exact htail _
      | vregexp rl rs rf =>
        rw [mergeSourceFields.eq_6 _ _ _ _ (fun h => LVal.noConfusion h)
          (fun h => LVal.noConfusion h) (fun _ _ h => LVal.noConfusion h)
          (fun _ _ h => LVal.noConfusion h)]
        by_cases hres2 : isReservedKey k' = true
        · rw [if_pos hres2]; exact htail acc
        · rw [if_neg hres2]; exact htail _
      | vmap ml men =>
        rw [mergeSourceFields.eq_6 _ _ _ _ (fun h => LVal.noConfusion h)
          (fun h => LVal.noConfusion h) (fun _ _ h => LVal.noConfusion h)
          (fun _ _ h => LVal.noConfusion h)]
        by_cases hres2 : isReservedKey k' = true
        · rw [if_pos hres2]; exact htail acc
        · rw [if_neg hres2]; exact htail _
      | vset sl ses =>
        rw [mergeSourceFields.eq_6 _ _ _ _ (fun h => LVal.noConfusion h)
          (fun h => LVal.noConfusion h) (fun _ _ h => LVal.noConfusion h)
          (fun _ _ h => LVal.noConfusion h)]
        by_cases hres2 : isReservedKey k' = true
        · rw [if_pos hres2]; exact htail acc
        · rw [if_neg hres2]; exact htail _
      | vfunc fid =>
        rw [mergeSourceFields.eq_6 _ _ _ _ (fun h => LVal.noConfusion h)
          (fun h => LVal.noConfusion h) (fun _ _ h => LVal.noConfusion h)
          (fun _ _ h => LVal.noConfusion h)]
        by_cases hres2 : isReservedKey k' = true
        · rw [if_pos hres2]; exact htail acc
        · rw [if_neg hres2]; exact htail _
      | vopaque ol =>
        rw [mergeSourceFields.eq_6 _ _ _ _ (fun h => LVal.noConfusion h)
          (fun h => LVal.noConfusion h) (fun _ _ h => LVal.noConfusion h)
          (fun _ _ h => LVal.noConfusion h)]
        by_cases hres2 : isReservedKey k' = true
        · rw [if_pos hres2]; exact htail acc
        · rw [if_neg hres2]; exact htail _

/-- Claim C6: in every pairwise application of the merge rule, a source
key holding an array ends up in the result as a fresh shallow copy of the
source's array (new array node, same element references), replacing the
target's value for that key; and the concrete example
deepMerge({a: [1,2]}, {a: [3]}) yields {a: [3]}. -/
theorem deepMerge_array_replace :
    (∀ (l1 : OId) (tfs : List (String × LVal)) (l2 : OId)
        (sfs : List (String × LVal)) (k : String) (al : OId) (es : List LVal),
      isReservedKey k = false → uniqKeys sfs = true →
      getKey sfs k = some (varr al es) →
      getKey (fieldsOf (mergeWith (vobj l1 tfs) [vobj l2 sfs])) k =
        some (varr none es)) ∧
    deepMerge [vobj (some 1) [("a", varr (some 2) [vnum 1, vnum 2])],
               vobj (some 3) [("a", varr (some 4) [vnum 3])]] =
      vobj none [("a", varr none [vnum 3])] := by
  constructor
  · intro l1 tfs l2 sfs k al es hres huniq hget
    show getKey (mergeSourceFields (mergeTargetFields [] tfs) sfs) k =
      some (varr none es)
    exact mergeSourceFields_getKey_array sfs _ k al es hres huniq hget
  · rfl

/-- Witness for deepMerge_array_replace's universal part at a concrete
two-object merge where the target also holds a value for the key. -/
theorem deepMerge_array_replace_witness :
    getKey (fieldsOf (mergeWith
      (vobj (some 1) [("b", vnum 0), ("a", varr (some 9) [vnum 1, vnum 2])])
      [vobj (some 2) [("a", varr (some 10) [vnum 3])]])) "a" =
      some (varr none [vnum 3]) :=
  deepMerge_array_replace.1 _ _ _ _ "a" _ _ rfl rfl rfl

/-! ## Claim C4: reserved-key guard -/
/-- Claim C4 is false as stated ("skipped during key iteration at every
level"): deepMerge's internal cloneValue helper copies a nested object's
own keys without the reserved-key filter, so an own key named
"constructor" nested below a merged key is iterated and copied into the
result rather than skipped. -/
theorem cloneValue_copies_reserved_key :
    deepMerge [vobj (some 1) [("a", vobj (some 2) [("constructor", vnum 42)])]] =
      vobj none [("a", vobj none [("constructor", vnum 42)])] := rfl

/-- Claim C4 (corrected): the reserved keys __proto__, constructor and
prototype are skipped by every key iteration of the merge/clone engines
proper — the clone loop (cwobFields) and both merge passes
(mergeTargetFields, mergeSourceFields) drop a reserved key at every
level — and in particular deepMerge({}, {"__proto__": X}) returns an
empty object for every X, leaving Object.prototype untouched and
exposing nothing through the prototype chain.  (Only the cloneValue
helper, exercised by the counterexample, lacks the filter.) -/
theorem reserved_key_iteration_guard :
    (∀ (l1 l2 : OId) (X : LVal),
      deepMerge [vobj l1 [], vobj l2 [("__proto__", X)]] = vobj none []) ∧
    (∀ (tfs : List (String × LVal)) (k : String) (sv : LVal)
        (rest : List (String × LVal)), isReservedKey k = true →
      cwobFields tfs ((k, sv) :: rest) = cwobFields tfs rest) ∧
    (∀ (acc : List (String × LVal)) (k : String) (sv : LVal)
        (rest : List (String × LVal)), isReservedKey k = true →
      mergeTargetFields acc ((k, sv) :: rest) = mergeTargetFields acc rest) ∧
    (∀ (acc : List (String × LVal)) (k : String) (sv : LVal)
        (rest : List (String × LVal)), isReservedKey k = true →
      mergeSourceFields acc ((k, sv) :: rest) = mergeSourceFields acc rest) := by
  refine ⟨?_, ?_, ?_, ?_⟩
  · intro l1 l2 X
    show vobj none (mergeSourceFields [] [("__proto__", X)]) = vobj none []
    refine congrArg (fun fs => vobj none fs) ?_
    have hres : isReservedKey "__proto__" = true := rfl
    cases X <;> first
      | rw [mergeSourceFields.eq_2, if_pos hres]
      | rw [mergeSourceFields.eq_3, if_pos hres]
      | rw [mergeSourceFields.eq_4, if_pos hres]
      | rw [mergeSourceFields.eq_5, if_pos hres]
      | rw [mergeSourceFields.eq_6 _ _ _ _ (fun h => (LVal.noConfusion h : False))
          (fun h => (LVal.noConfusion h : False))
          (fun _ _ h => (LVal.noConfusion h : False))
          (fun _ _ h => (LVal.noConfusion h : False)), if_pos hres]
    all_goals rfl
  · intro tfs k sv rest h
    cases sv <;> first
      | rw [cwobFields.eq_2, if_pos h]
      | rw [cwobFields.eq_3, if_pos h]
      | rw [cwobFields.eq_4 _ _ _ _ (fun _ _ h2 => (LVal.noConfusion h2 : False))
          (fun _ _ h2 => (LVal.noConfusion h2 : False)), if_pos h]
  · intro acc k sv rest h
    rw [mergeTargetFields.eq_2, if_pos h]
  · intro acc k sv rest h
    cases sv <;> first
      | rw [mergeSourceFields.eq_2, if_pos h]
      | rw [mergeSourceFields.eq_3, if_pos h]
      | rw [mergeSourceFields.eq_4, if_pos h]
      | rw [mergeSourceFields.eq_5, if_pos h]
      | rw [mergeSourceFields.eq_6 _ _ _ _ (fun h2 => (LVal.noConfusion h2 : False))
          (fun h2 => (LVal.noConfusion h2 : False))
          (fun _ _ h2 => (LVal.noConfusion h2 : False))
          (fun _ _ h2 => (LVal.noConfusion h2 : False)), if_pos h]

/-- Witness for reserved_key_iteration_guard: the prototype-pollution
example with a concrete polluted payload, and the three iteration skips
at concrete reserved keys. -/
theorem reserved_key_iteration_guard_witness :
    deepMerge [vobj (some 1) [],
      vobj (some 2) [("__proto__", vobj (some 3) [("polluted", vbool true)])]] =
        vobj none [] ∧
    cwobFields [] [("constructor", vnum 1)] = cwobFields [] [] ∧
    mergeTargetFields [] [("prototype", vnum 2)] = mergeTargetFields [] [] ∧
    mergeSourceFields [] [("__proto__", vnum 3)] = mergeSourceFields [] [] :=
  ⟨reserved_key_iteration_guard.1 _ _ _,
   reserved_key_iteration_guard.2.1 _ _ _ _ rfl,
   reserved_key_iteration_guard.2.2.1 _ _ _ _ rfl,
   reserved_key_iteration_guard.2.2.2 _ _ _ _ rfl⟩

mutual

/-- Normalized trees are plain trees. -/
theorem normv_plainVal (v : LVal) (h : normv v = true) : plainVal v = true := by
  match v with
  | vnull | vundef | vnum _ | vstr _ | vbool _ => rfl
  | vobj l fs =>
    match l with
    | none => exact normFields_plainFields fs (by simpa [normv] using h)
    | some _ => simp [normv] at h
  | varr _ _ | vdate _ _ | vregexp _ _ _ | vmap _ _ | vset _ _
  | vfunc _ | vopaque _ => simp [normv] at h

/-- Field version of normv_plainVal. -/
theorem normFields_plainFields (fs : List (String × LVal))
    (h : normFields fs = true) : plainFields fs = true := by
  match fs with
  | [] => rfl
  | (k, v) :: rest =>
    simp only [normFields, Bool.and_eq_true] at h
    simp only [plainFields, Bool.and_eq_true]
    exact ⟨normv_plainVal v h.1.1, normFields_plainFields rest h.2⟩

end

/-- Setting an unbound key appends the binding. -/
theorem setKey_absent (fs : List (String × LVal)) (q : String) (v : LVal)
    (h : getKey fs q = none) : setKey fs q v = fs ++ [(q, v)] := by
  induction fs with
  | nil => rfl
  | cons hd rest ih =>
    obtain ⟨k, v'⟩ := hd
    by_cases hk : (k == q) = true
    · simp [getKey, hk] at h
    · simp only [getKey, hk, Bool.false_eq_true, if_false] at h
      simp [setKey, hk, ih h]

/-- Looking up a key absent from the left part of an append. -/
theorem getKey_append_of_none (fs gs : List (String × LVal)) (q : String)
    (h : getKey fs q = none) : getKey (fs ++ gs) q = getKey gs q := by
  induction fs with
  | nil => rfl
  | cons hd rest ih =>
    obtain ⟨k, v'⟩ := hd
    by_cases hk : (k == q) = true
    · simp [getKey, hk] at h
    · simp only [getKey, hk, Bool.false_eq_true, if_false] at h
      simp only [List.cons_append, getKey, hk, Bool.false_eq_true, if_false]
      exact ih h

/-- setKey only introduces its own key. -/
theorem setKey_all_keys (fs : List (String × LVal)) (k q : String) (v : LVal)
    (hall : (fs.all fun p => p.1 != q) = true) (hk : (k == q) = false) :
    ((setKey fs k v).all fun p => p.1 != q) = true := by
  induction fs with
  | nil => simpa [setKey, bne] using hk
  | cons hd rest ih =>
    obtain ⟨k', v'⟩ := hd
    simp only [List.all_cons, Bool.and_eq_true] at hall
    by_cases hkk : (k' == k) = true
    · simp only [setKey, hkk, if_true, List.all_cons, Bool.and_eq_true]
      exact ⟨by simpa [bne] using hk, hall.2⟩
    · simp only [setKey, hkk, Bool.false_eq_true, if_false, List.all_cons,
        Bool.and_eq_true]
      exact ⟨hall.1, ih hall.2⟩

/-- setKey preserves normalized field lists when the value is normal. -/
theorem setKey_normFields (fs : List (String × LVal)) (k : String) (v : LVal)
    (hfs : normFields fs = true) (hv : normv v = true) :
    normFields (setKey fs k v) = true := by
  induction fs with
  | nil => simp [setKey, normFields, hv]
  | cons hd rest ih =>
    obtain ⟨k', v'⟩ := hd
    simp only [normFields, Bool.and_eq_true] at hfs
    by_cases hk : (k' == k) = true
    · have hkeq : k' = k := by simpa using hk
      subst hkeq
      simp only [setKey, beq_self_eq_true, if_true, normFields, Bool.and_eq_true]
      exact ⟨⟨hv, hfs.1.2⟩, hfs.2⟩
    · simp only [setKey, hk, Bool.false_eq_true, if_false, normFields,
        Bool.and_eq_true]
      refine ⟨⟨hfs.1.1, ?_⟩, ih hfs.2⟩
      have h1 : ¬k' = k := by simpa using hk
      have hne : (k == k') = false := by
        simpa [beq_eq_false_iff_ne] using fun he => h1 he.symm
      exact setKey_all_keys rest k k' v hfs.1.2 hne

/-- setKey preserves the absence of reserved keys when the key set is safe. -/
theorem setKey_noReservedTop (fs : List (String × LVal)) (k : String) (v : LVal)
    (hfs : noReservedTop fs = true) (hk : isReservedKey k = false) :
    noReservedTop (setKey fs k v) = true := by
  induction fs with
  | nil => simp [setKey, noReservedTop, hk]
  | cons hd rest ih =>
    obtain ⟨k', v'⟩ := hd
    simp only [noReservedTop, List.all_cons, Bool.and_eq_true] at hfs
    by_cases hkk : (k' == k) = true
    · simp only [setKey, hkk, if_true, noReservedTop, List.all_cons,
        Bool.and_eq_true]
      exact ⟨by simp [hk], hfs.2⟩
    · simp only [setKey, hkk, Bool.false_eq_true, if_false, noReservedTop,
        List.all_cons, Bool.and_eq_true]
      exact ⟨hfs.1, by simpa [noReservedTop] using ih hfs.2⟩

/-- Values stored in a normalized field list are normal. -/
theorem getKey_normFields (fs : List (String × LVal)) (q : String) (v : LVal)
    (hfs : normFields fs = true) (h : getKey fs q = some v) : normv v = true := by
  induction fs with
  | nil => simp [getKey] at h
  | cons hd rest ih =>
    obtain ⟨k', v'⟩ := hd
    simp only [normFields, Bool.and_eq_true] at hfs
    by_cases hk : (k' == q) = true
    · simp only [getKey, hk, if_true, Option.some.injEq] at h
      rw [← h]; exact hfs.1.1
    · simp only [getKey, hk, Bool.false_eq_true, if_false] at h
      exact ih hfs.2 h

/-- Reads from a normalized field list are normal (an absent key reads as
undefined, which is normal). -/
theorem readKey_normv (fs : List (String × LVal)) (q : String)
    (hfs : normFields fs = true) : normv (readKey fs q) = true := by
  unfold readKey
  cases hg : getKey fs q with
  | none => rfl
  | some v => exact getKey_normFields fs q v hfs hg

/-- Members of a plain field list are plain. -/
theorem plainFields_mem {fs : List (String × LVal)} {p : String × LVal}
    (h : plainFields fs = true) (hp : p ∈ fs) : plainVal p.2 = true := by
  induction fs with
  | nil => cases hp
  | cons hd rest ih =>
    obtain ⟨k, v⟩ := hd
    simp only [plainFields, Bool.and_eq_true] at h
    rcases List.mem_cons.mp hp with h1 | h1
    · rw [h1]; exact h.1
    · exact ih h.2 h1

/-- The cloneValue key loop normalizes plain fields, relative to an
oracle for the recursive cloneValue calls. -/
theorem cloneValueFields_norm_aux (N : Nat)
    (rec : ∀ v, sizeOf v < N → plainVal v = true → normv (cloneValue v) = true) :
    ∀ fs acc, (∀ p ∈ fs, sizeOf p.2 < N) → (∀ p ∈ fs, plainVal p.2 = true) →
      normFields acc = true → normFields (cloneValueFields acc fs) = true := by
  intro fs
  induction fs with
  | nil => intro acc _ _ hacc; exact hacc
  | cons hd rest ih =>
    obtain ⟨k, v⟩ := hd
    intro acc hN hC hacc
    rw [cloneValueFields.eq_2]
    exact ih _ (fun p hp => hN p (by simp [hp])) (fun p hp => hC p (by simp [hp]))
      (setKey_normFields _ _ _ hacc
        (rec v (hN (k, v) (by simp)) (hC (k, v) (by simp))))

/-- cloneValue normalizes a plain tree. -/
theorem cloneValue_normv_n (n : Nat) :
    ∀ v, sizeOf v ≤ n → plainVal v = true → normv (cloneValue v) = true := by
  induction n with
  | zero =>
    intro v hsz _
    exact absurd hsz (by have := lval_sizeOf_pos v; omega)
  | succ n ihn =>
    intro v hsz hv
    cases v
    case vnull => rfl
    case vundef => rfl
    case vnum m => rfl
    case vstr s => rfl
    case vbool b => rfl
    case vobj l fs =>
      simp only [LVal.vobj.sizeOf_spec] at hsz
      simp only [plainVal] at hv
      show normFields (cloneValueFields [] fs) = true
      exact cloneValueFields_norm_aux (sizeOf fs)
        (fun v hlt h => ihn v (by omega) h) fs []
        (fun p hp => sizeOf_snd_lt_list hp)
        (fun p hp => plainFields_mem hv hp) rfl
    all_goals simp [plainVal] at hv

/-- cloneValue normalizes a plain tree (wrapper). -/
theorem cloneValue_normv (v : LVal) (h : plainVal v = true) :
    normv (cloneValue v) = true :=
  cloneValue_normv_n (sizeOf v) v le_rfl h

/-- The cloneValue key loop is the identity on normalized field lists
disjoint from the accumulator, relative to a fixity oracle. -/
theorem cloneValueFields_id_aux (N : Nat)
    (rec : ∀ v, sizeOf v < N → normv v = true → cloneValue v = v) :
    ∀ fs acc, (∀ p ∈ fs, sizeOf p.2 < N) → normFields fs = true →
      (∀ p ∈ fs, getKey acc p.1 = none) →
      cloneValueFields acc fs = acc ++ fs := by
  intro fs
  induction fs with
  | nil => intro acc _ _ _; simp [cloneValueFields]
  | cons hd rest ih =>
    obtain ⟨k, v⟩ := hd
    intro acc hN hnorm hdisj
    simp only [normFields, Bool.and_eq_true] at hnorm
    rw [cloneValueFields.eq_2]
    rw [rec v (hN (k, v) (by simp)) hnorm.1.1]
    rw [setKey_absent acc k v (hdisj (k, v) (by simp))]
    rw [ih (acc ++ [(k, v)]) (fun p hp => hN p (by simp [hp])) hnorm.2 ?hdisj]
    · simp
    case hdisj =>
      intro p hp
      rw [getKey_append_of_none _ _ _ (hdisj p (by simp [hp]))]
      have hne2 : ¬(k == p.1) = true := by
        intro he
        have h1 : k = p.1 := by simpa using he
        have h2 := List.all_eq_true.mp hnorm.1.2 p hp
        simp [bne, h1] at h2
      simp only [getKey]
      rw [if_neg hne2]

/-- cloneValue is the identity on normalized trees. -/
theorem cloneValue_fix_n (n : Nat) :
    ∀ v, sizeOf v ≤ n → normv v = true → cloneValue v = v := by
  induction n with
  | zero =>
    intro v hsz _
    exact absurd hsz (by have := lval_sizeOf_pos v; omega)
  | succ n ihn =>
    intro v hsz hv
    cases v
    case vnull => rfl
    case vundef => rfl
    case vnum m => rfl
    case vstr s => rfl
    case vbool b => rfl
    case vobj l fs =>
      cases l with
      | some i => simp [normv] at hv
      | none =>
        simp only [LVal.vobj.sizeOf_spec] at hsz
        simp only [normv] at hv
        show vobj none (cloneValueFields [] fs) = vobj none fs
        rw [cloneValueFields_id_aux (sizeOf fs)
          (fun v hlt h => ihn v (by omega) h) fs []
          (fun p hp => sizeOf_snd_lt_list hp) hv
          (fun p _ => rfl)]
        simp
    all_goals simp [normv] at hv

/-- cloneValue is the identity on normalized trees (wrapper). -/
theorem cloneValue_fix (v : LVal) (h : normv v = true) : cloneValue v = v :=
  cloneValue_fix_n (sizeOf v) v le_rfl h

/-- The merge target pass keeps the accumulator normalized and free of
reserved keys when the target fields are plain. -/
theorem mergeTargetFields_norm :
    ∀ tfs acc, (∀ p ∈ tfs, plainVal p.2 = true) →
      normFields acc = true → noReservedTop acc = true →
      normFields (mergeTargetFields acc tfs) = true ∧
      noReservedTop (mergeTargetFields acc tfs) = true := by
  intro tfs
  induction tfs with
  | nil => intro acc _ h1 h2; exact ⟨h1, h2⟩
  | cons hd rest ih =>
    obtain ⟨k, v⟩ := hd
    intro acc hplain h1 h2
    rw [mergeTargetFields.eq_2]
    by_cases hres : isReservedKey k = true
    · rw [if_pos hres]
      exact ih _ (fun p hp => hplain p (by simp [hp])) h1 h2
    · rw [if_neg hres]
      exact ih _ (fun p hp => hplain p (by simp [hp]))
        (setKey_normFields _ _ _ h1
          (cloneValue_normv _ (hplain (k, v) (by simp))))
        (setKey_noReservedTop _ _ _ h2 (by simpa using hres))

/-- The merge source pass keeps the accumulator normalized and free of
reserved keys when the source fields are plain, relative to an oracle for
the recursive single-source merges. -/
theorem mergeSourceFields_norm_aux (N : Nat)
    (rec : ∀ t s, sizeOf s < N → plainVal t = true → isPlainObject t = true →
      plainVal s = true → isPlainObject s = true → normv (mergeTwo t s) = true) :
    ∀ sfs acc, (∀ p ∈ sfs, sizeOf p.2 < N) → (∀ p ∈ sfs, plainVal p.2 = true) →
      normFields acc = true → noReservedTop acc = true →
      normFields (mergeSourceFields acc sfs) = true ∧
      noReservedTop (mergeSourceFields acc sfs) = true := by
  intro sfs
  induction sfs with
  | nil => intro acc _ _ h1 h2; exact ⟨h1, h2⟩
  | cons hd rest ih =>
    obtain ⟨k, sv⟩ := hd
    intro acc hN hplain h1 h2
    have hNr : ∀ p ∈ rest, sizeOf p.2 < N := fun p hp => hN p (by simp [hp])
    have hpr : ∀ p ∈ rest, plainVal p.2 = true := fun p hp => hplain p (by simp [hp])
    have hpsv : plainVal sv = true := hplain (k, sv) (by simp)
    have hNsv : sizeOf sv < N := hN (k, sv) (by simp)
    cases sv with
    | vnull =>
      rw [mergeSourceFields.eq_2]
      by_cases hres : isReservedKey k = true
      · rw [if_pos hres]; exact ih acc hNr hpr h1 h2
      · rw [if_neg hres]
        exact ih _ hNr hpr (setKey_normFields _ _ _ h1 rfl)
          (setKey_noReservedTop _ _ _ h2 (by simpa using hres))
    | vundef =>
      rw [mergeSourceFields.eq_3]
      by_cases hres : isReservedKey k = true
      · rw [if_pos hres]; exact ih acc hNr hpr h1 h2
      · rw [if_neg hres]
        exact ih _ hNr hpr (setKey_normFields _ _ _ h1 rfl)
          (setKey_noReservedTop _ _ _ h2 (by simpa using hres))
    | vnum m =>
      rw [mergeSourceFields.eq_6 _ _ _ _ (fun h => (LVal.noConfusion h : False))
        (fun h => (LVal.noConfusion h : False))
        (fun _ _ h => (LVal.noConfusion h : False))
        (fun _ _ h => (LVal.noConfusion h : False))]
      by_cases hres : isReservedKey k = true
      · rw [if_pos hres]; exact ih acc hNr hpr h1 h2
      · rw [if_neg hres]
        exact ih _ hNr hpr (setKey_normFields _ _ _ h1 rfl)
          (setKey_noReservedTop _ _ _ h2 (by simpa using hres))
    | vstr s =>
      rw [mergeSourceFields.eq_6 _ _ _ _ (fun h => (LVal.noConfusion h : False))
        (fun h => (LVal.noConfusion h : False))
        (fun _ _ h => (LVal.noConfusion h : False))
        (fun _ _ h => (LVal.noConfusion h : False))]
      by_cases hres : isReservedKey k = true
      · rw [if_pos hres]; exact ih acc hNr hpr h1 h2
      · rw [if_neg hres]
        exact ih _ hNr hpr (setKey_normFields _ _ _ h1 rfl)
          (setKey_noReservedTop _ _ _ h2 (by simpa using hres))
    | vbool b =>
      rw [mergeSourceFields.eq_6 _ _ _ _ (fun h => (LVal.noConfusion h : False))
        (fun h => (LVal.noConfusion h : False))
        (fun _ _ h => (LVal.noConfusion h : False))
        (fun _ _ h => (LVal.noConfusion h : False))]
      by_cases hres : isReservedKey k = true
      · rw [if_pos hres]; exact ih acc hNr hpr h1 h2
      · rw [if_neg hres]
        exact ih _ hNr hpr (setKey_normFields _ _ _ h1 rfl)
          (setKey_noReservedTop _ _ _ h2 (by simpa using hres))
    | vobj ol ofs =>
      rw [mergeSourceFields.eq_5]
      by_cases hres : isReservedKey k = true
      · rw [if_pos hres]; exact ih acc hNr hpr h1 h2
      · rw [if_neg hres]
        by_cases hpl : isPlainObject (readKey acc k) = true
        · rw [if_pos hpl]
          refine ih _ hNr hpr (setKey_normFields _ _ _ h1 ?_)
            (setKey_noReservedTop _ _ _ h2 (by simpa using hres))
          exact rec _ _ hNsv
            (normv_plainVal _ (readKey_normv acc k h1)) hpl hpsv rfl
        · rw [if_neg hpl]
          exact ih _ hNr hpr
            (setKey_normFields _ _ _ h1 (cloneValue_normv _ hpsv))
            (setKey_noReservedTop _ _ _ h2 (by simpa using hres))
    | varr al aes => simp [plainVal] at hpsv
    | vdate dl dt => simp [plainVal] at hpsv
    | vregexp rl rs rf => simp [plainVal] at hpsv
    | vmap ml men => simp [plainVal] at hpsv
    | vset sl ses => simp [plainVal] at hpsv
    | vfunc fid => simp [plainVal] at hpsv
    | vopaque ol => simp [plainVal] at hpsv

/-- A pairwise merge of plain objects yields a normalized plain object
with no reserved top-level keys. -/
theorem mergeTwo_norm_n (n : Nat) :
    ∀ t s, sizeOf s ≤ n → plainVal t = true → isPlainObject t = true →
      plainVal s = true → isPlainObject s = true →
      normv (mergeTwo t s) = true ∧
      noReservedTop (fieldsOf (mergeTwo t s)) = true ∧
      isPlainObject (mergeTwo t s) = true := by
  induction n with
  | zero =>
    intro t s hsz _ _ _ _
    exact absurd hsz (by have := lval_sizeOf_pos s; omega)
  | succ n ihn =>
    intro t s hsz hpt hot hps hos
    cases t <;> simp [isPlainObject] at hot
    cases s <;> simp [isPlainObject] at hos
    case vobj.vobj lt tfs ls sfs =>
      simp only [LVal.vobj.sizeOf_spec] at hsz
      simp only [plainVal] at hpt hps
      have htf := mergeTargetFields_norm tfs []
        (fun p hp => plainFields_mem hpt hp) rfl rfl
      have hsf := mergeSourceFields_norm_aux (sizeOf sfs)
        (fun t' s' hlt h1 h2 h3 h4 => (ihn t' s' (by omega) h1 h2 h3 h4).1)
        sfs _ (fun p hp => sizeOf_snd_lt_list hp)
        (fun p hp => plainFields_mem hps hp) htf.1 htf.2
      exact ⟨hsf.1, hsf.2, rfl⟩

/-- A pairwise merge of plain objects yields a normalized plain object
(wrapper). -/
theorem mergeTwo_norm (t s : LVal) (hpt : plainVal t = true)
    (hot : isPlainObject t = true) (hps : plainVal s = true)
    (hos : isPlainObject s = true) :
    normv (mergeTwo t s) = true ∧
    noReservedTop (fieldsOf (mergeTwo t s)) = true ∧
    isPlainObject (mergeTwo t s) = true :=
  mergeTwo_norm_n (sizeOf s) t s le_rfl hpt hot hps hos

/-- The merge source pass acts as an append on a normalized, reserved-free
source field list disjoint from the accumulator. -/
theorem mergeSourceFields_id_aux :
    ∀ sfs acc, (∀ p ∈ sfs, getKey acc p.1 = none) →
      normFields sfs = true → noReservedTop sfs = true →
      mergeSourceFields acc sfs = acc ++ sfs := by
  intro sfs
  induction sfs with
  | nil => intro acc _ _ _; simp [mergeSourceFields.eq_1]
  | cons hd rest ih =>
    obtain ⟨k, sv⟩ := hd
    intro acc hdisj hnorm hnres
    simp only [normFields, Bool.and_eq_true] at hnorm
    simp only [noReservedTop, List.all_cons, Bool.and_eq_true] at hnres
    have hres : ¬isReservedKey k = true := by simpa using hnres.1
    have hkabs : getKey acc k = none := hdisj (k, sv) (by simp)
    have hstep : ∀ w, normv w = true → w = sv →
        mergeSourceFields (setKey acc k w) rest = setKey acc k w ++ rest := by
      intro w _ hw
      refine ih (setKey acc k w) ?_ hnorm.2 (by
        simpa [noReservedTop] using hnres.2)
      intro p hp
      rw [setKey_absent acc k w hkabs]
      rw [getKey_append_of_none _ _ _ (hdisj p (by simp [hp]))]
      have hne2 : ¬(k == p.1) = true := by
        intro he
        have h1 : k = p.1 := by simpa using he
        have h2 := List.all_eq_true.mp hnorm.1.2 p hp
        simp [bne, h1] at h2
      simp only [getKey]
      rw [if_neg hne2]
    have happ : setKey acc k sv ++ rest = acc ++ ((k, sv) :: rest) := by
      rw [setKey_absent acc k sv hkabs]; simp
    cases sv with
    | vnull =>
      rw [mergeSourceFields.eq_2, if_neg hres, hstep vnull rfl rfl, happ]
    | vundef =>
      rw [mergeSourceFields.eq_3, if_neg hres, hstep vundef rfl rfl, happ]
    | vnum m =>
      rw [mergeSourceFields.eq_6 _ _ _ _ (fun h => (LVal.noConfusion h : False))
        (fun h => (LVal.noConfusion h : False))
        (fun _ _ h => (LVal.noConfusion h : False))
        (fun _ _ h => (LVal.noConfusion h : False)), if_neg hres]
      rw [show cloneValue (vnum m) = vnum m from rfl, hstep (vnum m) rfl rfl, happ]
    | vstr s =>
      rw [mergeSourceFields.eq_6 _ _ _ _ (fun h => (LVal.noConfusion h : False))
        (fun h => (LVal.noConfusion h : False))
        (fun _ _ h => (LVal.noConfusion h : False))
        (fun _ _ h => (LVal.noConfusion h : False)), if_neg hres]
      rw [show cloneValue (vstr s) = vstr s from rfl, hstep (vstr s) rfl rfl, happ]
    | vbool b =>
      rw [mergeSourceFields.eq_6 _ _ _ _ (fun h => (LVal.noConfusion h : False))
        (fun h => (LVal.noConfusion h : False))
        (fun _ _ h => (LVal.noConfusion h : False))
        (fun _ _ h => (LVal.noConfusion h : False)), if_neg hres]
      rw [show cloneValue (vbool b) = vbool b from rfl, hstep (vbool b) rfl rfl, happ]
    | vobj ol ofs =>
      have hnsv : normv (vobj ol ofs) = true := hnorm.1.1
      rw [mergeSourceFields.eq_5, if_neg hres]
      have hrk : readKey acc k = vundef := by simp [readKey, hkabs]
      rw [if_neg (by simp [hrk, isPlainObject])]
      rw [cloneValue_fix _ hnsv, hstep (vobj ol ofs) hnsv rfl, happ]
    | varr al aes => simp [normv] at hnorm
    | vdate dl dt => simp [normv] at hnorm
    | vregexp rl rs rf => simp [normv] at hnorm
    | vmap ml men => simp [normv] at hnorm
    | vset sl ses => simp [normv] at hnorm
    | vfunc fid => simp [normv] at hnorm
    | vopaque ol => simp [normv] at hnorm

/-- Merging a normalized reserved-free plain object into the fresh empty
object returns it unchanged. -/
theorem mergeTwo_empty_id (s : LVal) (hn : normv s = true)
    (ho : isPlainObject s = true) (hr : noReservedTop (fieldsOf s) = true) :
    mergeTwo (vobj none []) s = s := by
  cases s <;> simp [isPlainObject] at ho
  case vobj l sfs =>
    cases l with
    | some i => simp [normv] at hn
    | none =>
      simp only [normv] at hn
      show vobj none (mergeSourceFields (mergeTargetFields [] []) sfs) =
        vobj none sfs
      rw [show mergeTargetFields [] [] = ([] : List (String × LVal)) from rfl]
      rw [mergeSourceFields_id_aux sfs [] (fun p _ => rfl) hn
        (by simpa [fieldsOf] using hr)]
      simp

/-- Claim C7: for plain-object trees a, b, c containing no arrays and no
special types (no Date, RegExp, Map, Set, function or class instance),
deepMerge(a, b, c) equals deepMerge(deepMerge(a, b), c).  The proof shows
the stronger fact that the two calls return the same tree on the nose:
merging an intermediate merge result into the fresh empty object returns
it unchanged, because merge results are normalized (fresh labels, unique
keys, no top-level reserved keys) and cloneValue fixes normalized trees. -/
theorem deepMerge_assoc (a b c : LVal)
    (hpa : plainVal a = true) (hoa : isPlainObject a = true)
    (hpb : plainVal b = true) (hob : isPlainObject b = true)
    (hpc : plainVal c = true) (hoc : isPlainObject c = true) :
    deepMerge [a, b, c] = deepMerge [deepMerge [a, b], c] := by
  cases a <;> simp [isPlainObject] at hoa
  cases b <;> simp [isPlainObject] at hob
  cases c <;> simp [isPlainObject] at hoc
  case vobj.vobj.vobj la fa lb fb lc fc =>
    have h1 := mergeTwo_norm (vobj none []) (vobj la fa) rfl rfl hpa rfl
    have h2 := mergeTwo_norm (mergeTwo (vobj none []) (vobj la fa)) (vobj lb fb)
      (normv_plainVal _ h1.1) h1.2.2 hpb rfl
    have hD := mergeTwo_empty_id
      (mergeTwo (mergeTwo (vobj none []) (vobj la fa)) (vobj lb fb))
      h2.1 h2.2.2 h2.2.1
    show mergeTwo (mergeTwo (mergeTwo (vobj none []) (vobj la fa)) (vobj lb fb))
        (vobj lc fc) =
      mergeTwo (mergeTwo (vobj none [])
        (mergeTwo (mergeTwo (vobj none []) (vobj la fa)) (vobj lb fb)))
        (vobj lc fc)
    rw [hD]

/-- Witness for deepMerge_assoc at concrete nested plain objects. -/
theorem deepMerge_assoc_witness :
    deepMerge [vobj (some 1) [("x", vnum 1), ("n", vobj (some 2) [("y", vnum 2)])],
               vobj (some 3) [("n", vobj (some 4) [("z", vnull)])],
               vobj (some 5) [("x", vstr "s")]] =
    deepMerge [deepMerge
      [vobj (some 1) [("x", vnum 1), ("n", vobj (some 2) [("y", vnum 2)])],
       vobj (some 3) [("n", vobj (some 4) [("z", vnull)])]],
      vobj (some 5) [("x", vstr "s")]] :=
  deepMerge_assoc _ _ _ rfl rfl rfl rfl rfl rfl

/-! ## Claim C3: makeReadonly and the original's mutability -/
/-- freezeElemIds distributes over append. -/
theorem freezeElemIds_append (xs ys : List LVal) :
    freezeElemIds (xs ++ ys) = freezeElemIds xs ++ freezeElemIds ys := by
  induction xs with
  | nil => simp [freezeElemIds]
  | cons v rest ih => simp [freezeElemIds, ih]

/-- Elements that are not object-typed contribute nothing to the freeze
set. -/
theorem freezeElemIds_of_nonObject (es : List LVal)
    (h : (es.all fun e => !isObjectTyped e) = true) : freezeElemIds es = [] := by
  induction es with
  | nil => rfl
  | cons v rest ih =>
    simp only [List.all_cons, Bool.and_eq_true] at h
    have hv : isObjectTyped v = false := by simpa using h.1
    simp [freezeElemIds, hv, ih h.2]

/-- setKey keeps a freeze-clean field list freeze-clean when the new
value contributes nothing. -/
theorem freezeFieldIds_setKey (fs : List (String × LVal)) (k : String) (v : LVal)
    (hfs : freezeFieldIds fs = [])
    (hv : (if isObjectTyped v then deepFreezeIds v else []) = []) :
    freezeFieldIds (setKey fs k v) = [] := by
  induction fs with
  | nil => simp [setKey, freezeFieldIds, hv]
  | cons hd rest ih =>
    obtain ⟨k', v'⟩ := hd
    simp only [freezeFieldIds, List.append_eq_nil] at hfs
    by_cases hk : (k' == k) = true
    · simp [setKey, hk, freezeFieldIds, List.append_eq_nil, hv, hfs.2]
    · simp only [setKey, hk, Bool.false_eq_true, if_false]
      simp [freezeFieldIds, List.append_eq_nil, hfs.1, ih hfs.2]

/-- Reads from a freeze-clean field list contribute nothing. -/
theorem freezeFieldIds_readKey (fs : List (String × LVal)) (k : String)
    (hfs : freezeFieldIds fs = []) :
    (if isObjectTyped (readKey fs k) then deepFreezeIds (readKey fs k) else []) = [] := by
  induction fs with
  | nil => simp [readKey, getKey, isObjectTyped]
  | cons hd rest ih =>
    obtain ⟨k', v'⟩ := hd
    simp only [freezeFieldIds, List.append_eq_nil] at hfs
    by_cases hk : (k' == k) = true
    · simpa [readKey, getKey, hk] using hfs.1
    · simp only [readKey, getKey, hk, Bool.false_eq_true, if_false] at ih ⊢
      exact ih hfs.2

/-- The clone loop keeps the freeze set empty, relative to an oracle for
the recursive cloneWithOriginalBehavior calls. -/
theorem cwobFields_frz_aux (N : Nat)
    (rec : ∀ b sv, sizeOf sv < N →
      (if isObjectTyped b then deepFreezeIds b else []) = [] →
      freezeSafe sv = true →
      (if isObjectTyped (cloneWithOriginalBehavior b sv) then
        deepFreezeIds (cloneWithOriginalBehavior b sv) else []) = []) :
    ∀ sfs tfs, (∀ p ∈ sfs, sizeOf p.2 < N) →
      freezeFieldIds tfs = [] → freezeSafeFields sfs = true →
      freezeFieldIds (cwobFields tfs sfs) = [] := by
  intro sfs
  induction sfs with
  | nil => intro tfs _ h1 _; exact h1
  | cons hd rest ih =>
    obtain ⟨k, sv⟩ := hd
    intro tfs hN h1 h2
    simp only [freezeSafeFields, Bool.and_eq_true] at h2
    have hNrest : ∀ p ∈ rest, sizeOf p.2 < N := fun p hp => hN p (by simp [hp])
    have hNsv : sizeOf sv < N := hN (k, sv) (by simp)
    cases sv
    case varr l es =>
      rw [cwobFields.eq_2]
      by_cases hres : isReservedKey k = true
      · rw [if_pos hres]; exact ih tfs hNrest h1 h2.2
      · rw [if_neg hres]
        refine ih _ hNrest (freezeFieldIds_setKey _ _ _ h1 ?_) h2.2
        refine rec _ (varr l es) hNsv ?_ h2.1
        by_cases htr : truthy (readKey tfs k) = true
        · rw [if_pos htr]; exact freezeFieldIds_readKey tfs k h1
        · rw [if_neg htr]; simp [isObjectTyped, deepFreezeIds, freezeElemIds, optId]
    case vobj l sfs' =>
      rw [cwobFields.eq_3]
      by_cases hres : isReservedKey k = true
      · rw [if_pos hres]; exact ih tfs hNrest h1 h2.2
      · rw [if_neg hres]
        refine ih _ hNrest (freezeFieldIds_setKey _ _ _ h1 ?_) h2.2
        refine rec _ (vobj l sfs') hNsv ?_ h2.1
        by_cases htr : truthy (readKey tfs k) = true
        · rw [if_pos htr]; exact freezeFieldIds_readKey tfs k h1
        · rw [if_neg htr]; simp [isObjectTyped, deepFreezeIds, freezeFieldIds, optId]
    case vdate dl dt => exact absurd h2.1 Bool.false_ne_true
    case vregexp rl rs rf => exact absurd h2.1 Bool.false_ne_true
    case vmap ml men => exact absurd h2.1 Bool.false_ne_true
    case vset sl ses => exact absurd h2.1 Bool.false_ne_true
    case vopaque ol => exact absurd h2.1 Bool.false_ne_true
    all_goals (
      rw [cwobFields.eq_4 _ _ _ _ (fun _ _ h => (LVal.noConfusion h : False))
        (fun _ _ h => (LVal.noConfusion h : False))]
      by_cases hres : isReservedKey k = true
      · rw [if_pos hres]; exact ih tfs hNrest h1 h2.2
      · rw [if_neg hres]
        refine ih _ hNrest (freezeFieldIds_setKey _ _ _ h1 ?_) h2.2
        simp [isObjectTyped])

/-- The clone recursion keeps the freeze set empty on freeze-safe
sources: no pre-existing node of the source ends up in the set of nodes
deepFreeze will freeze. -/
theorem cwob_frz_n (n : Nat) :
    ∀ t s, sizeOf s ≤ n →
      (if isObjectTyped t then deepFreezeIds t else []) = [] →
      freezeSafe s = true →
      (if isObjectTyped (cloneWithOriginalBehavior t s) then
        deepFreezeIds (cloneWithOriginalBehavior t s) else []) = [] := by
  induction n with
  | zero =>
    intro t s hsz _ _
    exact absurd hsz (by have := lval_sizeOf_pos s; omega)
  | succ n ihn =>
    intro t s hsz ht hs
    cases t <;> cases s <;> try exact ht
    case varr.varr l es l' es' =>
      simp only [isObjectTyped, if_true, deepFreezeIds, List.append_eq_nil] at ht
      simp only [freezeSafe] at hs
      show (if isObjectTyped (varr l (es ++ es')) = true then
        deepFreezeIds (varr l (es ++ es')) else []) = []
      simp [isObjectTyped, deepFreezeIds, freezeElemIds_append, List.append_eq_nil,
        ht.1, ht.2, freezeElemIds_of_nonObject es' hs]
    case vobj.vobj l fs l' sfs =>
      simp only [LVal.vobj.sizeOf_spec] at hsz
      simp only [isObjectTyped, if_true, deepFreezeIds, List.append_eq_nil] at ht
      simp only [freezeSafe] at hs
      show (if isObjectTyped (vobj l (cwobFields fs sfs)) = true then
        deepFreezeIds (vobj l (cwobFields fs sfs)) else []) = []
      simp only [isObjectTyped, if_true, deepFreezeIds, List.append_eq_nil]
      exact ⟨ht.1, cwobFields_frz_aux (sizeOf sfs)
        (fun b sv hlt hb hsv => ihn b sv (by omega) hb hsv) sfs fs
        (fun p hp => sizeOf_snd_lt_list hp) ht.2 hs⟩

/-- Claim C3 is false as stated: makeReadonly deep-freezes the clone, and
the clone shares the plain object stored inside the input's array (clone
copies array elements by reference), so Object.freeze is called on the
input's own node with identity 2 — afterwards writes to that nested
object of the original fail. -/
theorem makeReadonly_freezes_original_node :
    (makeReadonly c3Input).2 = [2] ∧ (oaIds c3Input).contains 2 = true :=
  ⟨rfl, rfl⟩

/-- Claim C3 (corrected): when the input contains no Date, RegExp, Map,
Set or class instance anywhere and its arrays hold only non-object values
(primitives and functions), makeReadonly freezes only freshly allocated
nodes: the set of pre-existing node identities frozen by the call is
empty, so the original input and every nested object of it remain fully
mutable. -/
theorem makeReadonly_spares_original (x : LVal) (h : freezeSafe x = true) :
    (makeReadonly x).2 = [] := by
  have h0 := cwob_frz_n (sizeOf x) (vobj none []) x le_rfl
    (by simp [isObjectTyped, deepFreezeIds, freezeFieldIds, optId]) h
  have hobj : ∃ fs, clone x = vobj none fs := by
    cases x
    case vobj l fs => exact ⟨cwobFields [] fs, rfl⟩
    all_goals exact ⟨[], rfl⟩
  obtain ⟨fs, hfs⟩ := hobj
  show deepFreezeIds (clone x) = []
  rw [show cloneWithOriginalBehavior (vobj none []) x = vobj none fs from hfs] at h0
  rw [hfs]
  simpa [isObjectTyped] using h0

/-- Witness for makeReadonly_spares_original at a concrete freeze-safe
input with nested objects, a scalar array and a function value. -/
theorem makeReadonly_spares_original_witness :
    freezeSafe (vobj (some 0) [("a", vnum 1), ("f", vfunc 7),
      ("arr", varr (some 1) [vnum 2, vstr "x"]),
      ("o", vobj (some 2) [("b", vstr "s")])]) = true ∧
    (makeReadonly (vobj (some 0) [("a", vnum 1), ("f", vfunc 7),
      ("arr", varr (some 1) [vnum 2, vstr "x"]),
      ("o", vobj (some 2) [("b", vstr "s")])])).2 = [] :=
  ⟨rfl, makeReadonly_spares_original _ rfl⟩

/-- Helper restating the clone fallback: a non-plain-object input yields
the untouched fresh target object. -/
theorem clone_of_nonPlain (v : LVal) (h : isPlainObject v = false) :
    clone v = vobj none [] := by
  cases v <;> first | rfl | simp [isPlainObject] at h

/-- A non-plain-object value fed to traverseObject comes back as a fresh
empty object whenever the call returns at all: clone yields {}, there are
no keys to visit, and the empty result object is returned. -/
theorem traverseObjectF_nonPlain {fn : Visitor} {f : Nat} {v : LVal}
    {path : List PathE} {r : LVal} (hv : isPlainObject v = false)
    (h : (traverseObjectF fn f v path).1 = Except.ok r) : r = vobj none [] := by
  cases f with
  | zero => simp [traverseObjectF] at h
  | succ n =>
    have hcl : clone v = vobj none [] := clone_of_nonPlain v hv
    simp only [traverseObjectF, hcl, fieldsOf, collectEntries, List.any_nil,
      Bool.false_eq_true, if_false] at h
    cases n with
    | zero => simp [processEntriesSync] at h
    | succ m =>
      simp only [processEntriesSync, List.nil_append] at h
      exact (Except.ok.injEq _ _ ▸ h).symm

/-- The sync top-level array branch maps each element through
traverseObject: a successful run returns one result per element, and each
non-plain element's slot holds a fresh empty object. -/
theorem arrayTopSync_elems {fn : Visitor} {fuel : Nat} :
    ∀ {es rs : List LVal},
      (arrayTopSync fn fuel es).1 = Except.ok rs →
      rs.length = es.length ∧
        ∀ i (hi : i < es.length) (hr : i < rs.length),
          isPlainObject (es.get ⟨i, hi⟩) = false →
          rs.get ⟨i, hr⟩ = vobj none [] := by
  intro es
  induction es with
  | nil =>
    intro rs h
    simp [arrayTopSync] at h
    subst h
    exact ⟨rfl, fun i hi => absurd hi (Nat.not_lt_zero i)⟩
  | cons v rest ih =>
    intro rs h
    simp only [arrayTopSync] at h
    rcases h1 : traverseObjectF fn fuel v [] with ⟨r1, tr1⟩
    rw [h1] at h
    cases r1 with
    | error e => simp at h
    | ok r =>
      rcases h2 : arrayTopSync fn fuel rest with ⟨r2, tr2⟩
      rw [h2] at h
      cases r2 with
      | error e2 => simp at h
      | ok rs2 =>
        simp only at h
        have hrs : rs = r :: rs2 := by
          simp only [Except.ok.injEq] at h
          first | exact h | exact h.symm
        subst hrs
        have htail := ih (by rw [h2])
        refine ⟨by simpa using htail.1, ?_⟩
        intro i hi hr hnp
        cases i with
        | zero =>
          have h0 : isPlainObject v = false := hnp
          show r = vobj none []
          exact traverseObjectF_nonPlain h0 (by rw [h1])
        | succ j =>
          exact htail.2 j (Nat.lt_of_succ_lt_succ hi) (Nat.lt_of_succ_lt_succ hr) hnp

/-- The async top-level array branch maps each element through
traverseObject exactly like the sync one. -/
theorem arrayTopAsync_elems {fn : Visitor} {fuel : Nat} :
    ∀ {es rs : List LVal},
      (arrayTopAsync fn fuel es).1 = Except.ok rs →
      rs.length = es.length ∧
        ∀ i (hi : i < es.length) (hr : i < rs.length),
          isPlainObject (es.get ⟨i, hi⟩) = false →
          rs.get ⟨i, hr⟩ = vobj none [] := by
  intro es
  induction es with
  | nil =>
    intro rs h
    simp [arrayTopAsync] at h
    subst h
    exact ⟨rfl, fun i hi => absurd hi (Nat.not_lt_zero i)⟩
  | cons v rest ih =>
    intro rs h
    simp only [arrayTopAsync] at h
    rcases h1 : traverseObjectF fn fuel v [] with ⟨r1, tr1⟩
    rw [h1] at h
    cases r1 with
    | error e => simp at h
    | ok r =>
      rcases h2 : arrayTopAsync fn fuel rest with ⟨r2, tr2⟩
      rw [h2] at h
      cases r2 with
      | error e2 => simp at h
      | ok rs2 =>
        simp only at h
        have hrs : rs = r :: rs2 := by
          simp only [Except.ok.injEq] at h
          first | exact h | exact h.symm
        subst hrs
        have htail := ih (by rw [h2])
        refine ⟨by simpa using htail.1, ?_⟩
        intro i hi hr hnp
        cases i with
        | zero =>
          have h0 : isPlainObject v = false := hnp
          show r = vobj none []
          exact traverseObjectF_nonPlain h0 (by rw [h1])
        | succ j =>
          exact htail.2 j (Nat.lt_of_succ_lt_succ hi) (Nat.lt_of_succ_lt_succ hr) hnp

/-- C5 amended: whenever traverse on a top-level array returns a result,
that result is a fresh array with one slot per input element, and every
slot whose input element is not a plain object holds a fresh empty
object. -/
theorem traverse_top_array (fn : Visitor) (fuel : Nat) (l : OId)
    (es : List LVal) (out : LVal)
    (h : (traverseF fn fuel (varr l es)).1 = Except.ok out) :
    ∃ rs : List LVal, out = varr none rs ∧ rs.length = es.length ∧
      ∀ i (hi : i < es.length) (hr : i < rs.length),
        isPlainObject (es.get ⟨i, hi⟩) = false →
        rs.get ⟨i, hr⟩ = vobj none [] := by
  rcases hp : fn "test" (vstr "test") [] with ⟨p, ig, out'⟩
  cases p with
  | false =>
    cases out' with
    | error e => simp [traverseF, hp] at h
    | ok o =>
      simp only [traverseF, hp] at h
      rcases ht : traverseTop fn fuel false (varr l es) with ⟨r0, tr0⟩
      rw [ht] at h
      simp only at h
      simp only [traverseTop, Bool.false_eq_true, if_false] at ht
      rcases ha : arrayTopSync fn fuel es with ⟨ra, tra⟩
      rw [ha] at ht
      cases ra with
      | error e2 =>
        injection ht with ht1 ht2
        rw [← ht1] at h
        simp at h
      | ok rs =>
        injection ht with ht1 ht2
        rw [← ht1] at h
        have hout : out = varr none rs := by
          simpa using h.symm
        obtain ⟨hlen, hpt⟩ := @arrayTopSync_elems fn fuel es rs (by rw [ha])
        exact ⟨rs, hout, hlen, hpt⟩
  | true =>
    simp only [traverseF, hp] at h
    rcases ht : traverseTop fn fuel true (varr l es) with ⟨r0, tr0⟩
    rw [ht] at h
    simp only at h
    simp only [traverseTop, if_true] at ht
    rcases ha : arrayTopAsync fn fuel es with ⟨ra, tra⟩
    rw [ha] at ht
    cases ra with
    | error e2 =>
      injection ht with ht1 ht2
      rw [← ht1] at h
      simp at h
    | ok rs =>
      injection ht with ht1 ht2
      rw [← ht1] at h
      have hout : out = varr none rs := by
        simpa using h.symm
      obtain ⟨hlen, hpt⟩ := @arrayTopAsync_elems fn fuel es rs (by rw [ha])
      exact ⟨rs, hout, hlen, hpt⟩

/-- C5 counterexample: a non-plain element does not pass through
unchanged — traverse([1]) with an identity visitor returns [{}], because
traverseObject clones the number into a fresh empty object. -/
theorem traverse_array_replaces_nonplain :
    (traverseF visitUndef 5 (varr (some 0) [vnum 1])).1 =
      Except.ok (varr none [vobj none []]) ∧
    (vobj none [] : LVal) ≠ vnum 1 :=
  ⟨rfl, fun hc => LVal.noConfusion hc⟩

/-- Witness: traverse_top_array at the concrete run traverse([1]). -/
theorem traverse_top_array_witness :
    ∃ rs : List LVal, varr none [vobj none []] = varr none rs ∧
      rs.length = [vnum 1].length ∧
      ∀ i (hi : i < [vnum 1].length) (hr : i < rs.length),
        isPlainObject ([vnum 1].get ⟨i, hi⟩) = false →
        rs.get ⟨i, hr⟩ = vobj none [] :=
  traverse_top_array visitUndef 5 (some 0) [vnum 1]
    (varr none [vobj none []]) rfl

/-- C9: (i) every traverse call invokes the visitor first on the
synthetic probe pair {key: 'test', value: 'test'} with an empty node
path; (ii) if the visitor throws synchronously on the probe, the whole
call fails with that error and the probe is the only invocation made;
(iii) otherwise the probe's promise flag alone selects the sync or the
async body for the entire call. -/
theorem traverse_probe_contract :
    (∀ (fn : Visitor) (fuel : Nat) (obj : LVal),
      (traverseF fn fuel obj).2.head? = some probeCall) ∧
    (∀ (fn : Visitor) (fuel : Nat) (obj : LVal) (ig : Bool) (e : Nat),
      fn "test" (vstr "test") [] = ⟨false, ig, Except.error e⟩ →
      traverseF fn fuel obj = (Except.error (EErr.thrown e), [probeCall])) ∧
    (∀ (fn : Visitor) (fuel : Nat) (obj : LVal) (p ig : Bool)
      (o : Option (String × LVal)),
      fn "test" (vstr "test") [] = ⟨p, ig, Except.ok o⟩ →
      traverseF fn fuel obj =
        ((traverseTop fn fuel p obj).1,
          probeCall :: (traverseTop fn fuel p obj).2)) := by
  refine ⟨?_, ?_, ?_⟩
  · intro fn fuel obj
    rcases hp : fn "test" (vstr "test") [] with ⟨p, ig, out⟩
    cases p with
    | false =>
      cases out with
      | error e => simp [traverseF, hp]
      | ok o =>
        simp [traverseF, hp]
    | true =>
      simp [traverseF, hp]
  · intro fn fuel obj ig e hp
    simp [traverseF, hp]
  · intro fn fuel obj p ig o hp
    cases p with
    | false => simp [traverseF, hp]
    | true => simp [traverseF, hp]

/-- Witness: the probe contract at a throwing visitor and at the
undefined-returning visitor, on the input 0. -/
theorem traverse_probe_contract_witness :
    (traverseF visitThrow7 3 (vnum 0)).2.head? = some probeCall ∧
    traverseF visitThrow7 3 (vnum 0) =
      (Except.error (EErr.thrown 7), [probeCall]) ∧
    traverseF visitUndef 3 (vnum 0) =
      ((traverseTop visitUndef 3 false (vnum 0)).1,
        probeCall :: (traverseTop visitUndef 3 false (vnum 0)).2) :=
  ⟨traverse_probe_contract.1 visitThrow7 3 (vnum 0),
   traverse_probe_contract.2.1 visitThrow7 3 (vnum 0) false 7 rfl,
   traverse_probe_contract.2.2 visitUndef 3 (vnum 0) false false none rfl⟩

theorem collectEntries_syncVisitor (r : Rule) (path : List PathE) :
    ∀ fs : List (String × LVal),
      collectEntries (syncVisitor r) path fs =
        (Except.ok (ruleEntries r false path fs), ruleTrace path fs) := by
  intro fs
  induction fs with
  | nil => rfl
  | cons p rest ih =>
    rcases p with ⟨k, v⟩
    simp only [collectEntries, syncVisitor, ruleEntries, ruleTrace, ih]

theorem collectEntries_asyncVisitor (r : Rule) (path : List PathE) :
    ∀ fs : List (String × LVal),
      collectEntries (asyncVisitor r) path fs =
        (Except.ok (ruleEntries r true path fs), ruleTrace path fs) := by
  intro fs
  induction fs with
  | nil => rfl
  | cons p rest ih =>
    rcases p with ⟨k, v⟩
    simp only [collectEntries, asyncVisitor, ruleEntries, ruleTrace, ih]

theorem ruleEntries_any_false (r : Rule) (path : List PathE) :
    ∀ fs : List (String × LVal),
      (ruleEntries r false path fs).any (fun e => e.promise) = false := by
  intro fs
  induction fs with
  | nil => rfl
  | cons p rest ih =>
    rcases p with ⟨k, v⟩
    simp only [ruleEntries, List.any_cons, ih, Bool.or_false]

/-- Joint fuel-indexed parity of the whole entry-processing engine: at
every fuel level, each processing function produces the same settled
result for the synchronous and the asynchronous visitor of one rule. -/
theorem parity_n : ∀ n : Nat,
    (∀ (r : Rule) (obj : LVal) (path : List PathE),
      (traverseObjectF (syncVisitor r) n obj path).1 =
        (traverseObjectF (asyncVisitor r) n obj path).1) ∧
    (∀ (r : Rule) (path : List PathE) (fs acc : List (String × LVal)),
      (processEntriesSync (syncVisitor r) n (ruleEntries r false path fs) acc).1 =
        (processEntriesAsync (asyncVisitor r) n (ruleEntries r true path fs) acc).1) ∧
    (∀ (r : Rule) (key : String) (res : Option (String × LVal))
      (path : List PathE) (ig : Bool) (ov : LVal),
      (processEntryCommon (syncVisitor r) n false key res path ig ov).1 =
        (processEntryCommon (asyncVisitor r) n true key res path ig ov).1) ∧
    (∀ (r : Rule) (kv : String × LVal) (path : List PathE) (ig : Bool),
      (processEntryValue (syncVisitor r) n false kv path ig).1 =
        (processEntryValue (asyncVisitor r) n true kv path ig).1) ∧
    (∀ (r : Rule) (es : List LVal) (path : List PathE) (idx : Nat),
      (processArraySync (syncVisitor r) n es path idx).1 =
        (processArrayAsync (asyncVisitor r) n es path idx).1) := by
  intro n
  induction n with
  | zero =>
    exact ⟨fun _ _ _ => rfl, fun _ _ _ _ => rfl, fun _ _ _ _ _ _ => rfl,
      fun _ _ _ _ => rfl, fun _ _ _ _ => rfl⟩
  | succ n ih =>
    obtain ⟨ihT, ihE, ihC, ihV, ihA⟩ := ih
    refine ⟨?_, ?_, ?_, ?_, ?_⟩
    · intro r obj path
      cases hfs : fieldsOf (clone obj) with
      | nil =>
        simp only [traverseObjectF, hfs, collectEntries, List.any_nil,
          Bool.false_eq_true, if_false]
        cases n with
        | zero => rfl
        | succ m => rfl
      | cons p rest =>
        simp only [traverseObjectF, hfs, collectEntries_syncVisitor,
          collectEntries_asyncVisitor]
        have hS := ruleEntries_any_false r path (p :: rest)
        have hA : (ruleEntries r true path (p :: rest)).any
            (fun e => e.promise) = true := by
          rcases p with ⟨k, v⟩
          simp [ruleEntries]
        rw [hS, hA]
        simp only [Bool.false_eq_true, if_false, if_true]
        have hE := ihE r path (p :: rest) []
        rcases h1 : processEntriesSync (syncVisitor r) n
            (ruleEntries r false path (p :: rest)) [] with ⟨r1, t1⟩
        rcases h2 : processEntriesAsync (asyncVisitor r) n
            (ruleEntries r true path (p :: rest)) [] with ⟨r2, t2⟩
        rw [h1, h2] at hE
        simp only at hE
        rw [hE]
        cases r2 <;> rfl
    · intro r path fs acc
      cases fs with
      | nil => rfl
      | cons p rest =>
        rcases p with ⟨k, v⟩
        simp only [ruleEntries, processEntriesSync, processEntriesAsync]
        have hC := ihC r k ((r k v (path ++ [PathE.pk k])).1)
          (path ++ [PathE.pk k]) ((r k v (path ++ [PathE.pk k])).2) v
        rcases h1 : processEntryCommon (syncVisitor r) n false k
            ((r k v (path ++ [PathE.pk k])).1) (path ++ [PathE.pk k])
            ((r k v (path ++ [PathE.pk k])).2) v with ⟨r1, t1⟩
        rcases h2 : processEntryCommon (asyncVisitor r) n true k
            ((r k v (path ++ [PathE.pk k])).1) (path ++ [PathE.pk k])
            ((r k v (path ++ [PathE.pk k])).2) v with ⟨r2, t2⟩
        rw [h1, h2] at hC
        simp only at hC
        rw [hC]
        cases r2 with
        | error e => rfl
        | ok kv =>
          dsimp only
          have hR := ihE r path rest (setKey acc kv.1 kv.2)
          rcases h3 : processEntriesSync (syncVisitor r) n
              (ruleEntries r false path rest) (setKey acc kv.1 kv.2) with ⟨r3, t3⟩
          rcases h4 : processEntriesAsync (asyncVisitor r) n
              (ruleEntries r true path rest) (setKey acc kv.1 kv.2) with ⟨r4, t4⟩
          rw [h3, h4] at hR
          simp only at hR
          rw [hR]
          cases r4 <;> rfl
    · intro r key res path ig ov
      exact ihV r (resolveKV key ov res) path ig
    · intro r kv path ig
      rcases kv with ⟨nk, nv⟩
      simp only [processEntryValue]
      by_cases h1 : (truthy nv && !ig) = true
      · rw [if_pos h1, if_pos h1]
        by_cases h2 : isPlainObject nv = true
        · rw [if_pos h2, if_pos h2]
          have hT := ihT r nv path
          rcases ha : traverseObjectF (syncVisitor r) n nv path with ⟨r1, t1⟩
          rcases hb : traverseObjectF (asyncVisitor r) n nv path with ⟨r2, t2⟩
          rw [ha, hb] at hT
          simp only at hT
          rw [hT]
          cases r2 <;> rfl
        · rw [if_neg h2, if_neg h2]
          by_cases h3 : isArray nv = true
          · rw [if_pos h3, if_pos h3]
            simp only [Bool.false_eq_true, if_false, if_true]
            have hP := ihA r (elemsOf nv) path 0
            rcases ha : processArraySync (syncVisitor r) n (elemsOf nv) path 0
              with ⟨r1, t1⟩
            rcases hb : processArrayAsync (asyncVisitor r) n (elemsOf nv) path 0
              with ⟨r2, t2⟩
            rw [ha, hb] at hP
            simp only at hP
            rw [hP]
            cases r2 <;> rfl
          · rw [if_neg h3, if_neg h3]
      · rw [if_neg h1, if_neg h1]
    · intro r es path idx
      cases es with
      | nil => rfl
      | cons e rest =>
        simp only [processArraySync, processArrayAsync]
        by_cases hg : (truthy e && isPlainObject e) = true
        · rw [if_pos hg, if_pos hg]
          have hT := ihT r e (path ++ [PathE.pi idx])
          rcases ha : traverseObjectF (syncVisitor r) n e (path ++ [PathE.pi idx])
            with ⟨r1, t1⟩
          rcases hb : traverseObjectF (asyncVisitor r) n e (path ++ [PathE.pi idx])
            with ⟨r2, t2⟩
          rw [ha, hb] at hT
          simp only at hT
          rw [hT]
          cases r2 with
          | error er => rfl
          | ok rr =>
            dsimp only
            have hR := ihA r rest path (idx + 1)
            rcases h3 : processArraySync (syncVisitor r) n rest path (idx + 1)
              with ⟨r3, t3⟩
            rcases h4 : processArrayAsync (asyncVisitor r) n rest path (idx + 1)
              with ⟨r4, t4⟩
            rw [h3, h4] at hR
            simp only at hR
            rw [hR]
            cases r4 <;> rfl
        · rw [if_neg hg, if_neg hg]
          have hR := ihA r rest path (idx + 1)
          rcases h3 : processArraySync (syncVisitor r) n rest path (idx + 1)
            with ⟨r3, t3⟩
          rcases h4 : processArrayAsync (asyncVisitor r) n rest path (idx + 1)
            with ⟨r4, t4⟩
          rw [h3, h4] at hR
          simp only at hR
          rw [hR]
          cases r4 <;> rfl

/-- Top-level array parity: mapping elements through traverseObject
settles identically for the two visitors of one rule. -/
theorem arrayTop_parity (r : Rule) (fuel : Nat) :
    ∀ es : List LVal,
      (arrayTopSync (syncVisitor r) fuel es).1 =
        (arrayTopAsync (asyncVisitor r) fuel es).1 := by
  intro es
  induction es with
  | nil => rfl
  | cons v rest ih =>
    simp only [arrayTopSync, arrayTopAsync]
    have hT := (parity_n fuel).1 r v []
    rcases ha : traverseObjectF (syncVisitor r) fuel v [] with ⟨r1, t1⟩
    rcases hb : traverseObjectF (asyncVisitor r) fuel v [] with ⟨r2, t2⟩
    rw [ha, hb] at hT
    simp only at hT
    rw [hT]
    cases r2 with
    | error e => rfl
    | ok rr =>
      dsimp only
      rcases h3 : arrayTopSync (syncVisitor r) fuel rest with ⟨r3, t3⟩
      rcases h4 : arrayTopAsync (asyncVisitor r) fuel rest with ⟨r4, t4⟩
      rw [h3, h4] at ih
      simp only at ih
      rw [ih]
      cases r4 <;> rfl

/-- C8: the synchronous and the asynchronous visitor of one rewrite rule
make traverse settle to the same result on every input and at every
recursion bound — the async code path refines the sync one. -/
theorem traverse_sync_async_parity (r : Rule) (fuel : Nat) (obj : LVal) :
    (traverseF (syncVisitor r) fuel obj).1 =
      (traverseF (asyncVisitor r) fuel obj).1 := by
  have hsync : (traverseF (syncVisitor r) fuel obj).1 =
      (traverseTop (syncVisitor r) fuel false obj).1 := by
    rcases ht : traverseTop (syncVisitor r) fuel false obj with ⟨r0, tr0⟩
    simp [traverseF, syncVisitor, ht]
  have hasync : (traverseF (asyncVisitor r) fuel obj).1 =
      (traverseTop (asyncVisitor r) fuel true obj).1 := by
    rcases ht : traverseTop (asyncVisitor r) fuel true obj with ⟨r0, tr0⟩
    simp [traverseF, asyncVisitor, ht]
  rw [hsync, hasync]
  cases obj with
  | varr l es =>
    simp only [traverseTop, Bool.false_eq_true, if_false, if_true]
    have hA := arrayTop_parity r fuel es
    rcases ha : arrayTopSync (syncVisitor r) fuel es with ⟨r1, t1⟩
    rcases hb : arrayTopAsync (asyncVisitor r) fuel es with ⟨r2, t2⟩
    rw [ha, hb] at hA
    simp only at hA
    rw [hA]
    cases r2 <;> rfl
  | vobj l fs =>
    simp only [traverseTop, Bool.false_eq_true, if_false, if_true]
    exact (parity_n fuel).1 r (vobj l fs) []
  | vnull => rfl
  | vundef => rfl
  | vnum n => rfl
  | vstr s => rfl
  | vbool b => rfl
  | vdate l t => rfl
  | vregexp l src flags => rfl
  | vmap l en => rfl
  | vset l es => rfl
  | vfunc fid => rfl
  | vopaque l => rfl

end Otskit
